import Mathlib

/-!
RepoVulnScan: manifest discovery and extraction pipeline

A shallow embedding of `main.go`.  Go strings are modelled by Lean strings
(sequences of Unicode code points), Go maps by association lists with at most
one binding per key, and a Go call that may panic by `Outcome`.

Library code the program calls is modelled as follows.

* `strings.TrimSpace`, `strings.Trim`, `strings.Split`, `strings.Fields`,
  `filepath.Base`: executable definitions following the Go documentation.
* `regexp`: a backtracking matcher over the abstract syntax of the patterns.
  The package documentation fixes the match that is returned as the leftmost
  one and, among those, the one a backtracking search finds first.
* `encoding/json`: a recursive-descent reader of RFC 8259 text producing the
  generic value tree that `json.Unmarshal` stores in `interface{}`; as the
  package does, it fails on a number out of the range of `float64` and on more
  than 10000 nested objects and arrays.
* `toml.Decode` (third party) and the three HTTP wrappers `fetchFiles`,
  `fetchFileContent` and `checkVulnerabilities` are parameters.
-/

namespace RepoVulnScan

/-! ## Go values -/

/-- The outcome of a Go call: it returns a value, or it panics. -/
inductive Outcome (α : Type) where
  | ret : α → Outcome α
  | panic : Outcome α
  deriving DecidableEq, Repr

/-- A Go `map[string]string`: an association list holding one binding per key. -/
abbrev GoMap := List (String × String)

/-- The map read `m[k]` with the comma-ok result. -/
def GoMap.get : GoMap → String → Option String
  | [], _ => none
  | (k, v) :: m, key => if k = key then some v else GoMap.get m key

/-- The map write `m[k] = v`: an existing binding is overwritten. -/
def GoMap.set : GoMap → String → String → GoMap
  | [], key, val => [(key, val)]
  | (k, v) :: m, key, val => if k = key then (k, val) :: m else (k, v) :: GoMap.set m key val

/-! ## Package `strings` and `path/filepath` -/

/-- The predicate `unicode.IsSpace`. -/
def isSpace (c : Char) : Bool :=
  let n := c.toNat
  (9 ≤ n && n ≤ 13) || n == 32 || n == 133 || n == 160 || n == 5760 ||
  (8192 ≤ n && n ≤ 8202) || n == 8232 || n == 8233 || n == 8239 || n == 8287 || n == 12288

/-- Drop the longest suffix whose characters all satisfy `p`. -/
def dropWhileEnd (p : Char → Bool) (s : List Char) : List Char :=
  (s.reverse.dropWhile p).reverse

/-- The function `strings.TrimSpace` on character lists. -/
def trimSpaceChars (s : List Char) : List Char :=
  dropWhileEnd isSpace (s.dropWhile isSpace)

/-- The function `strings.Trim(s, cutset)` on character lists. -/
def trimChars (cutset : List Char) (s : List Char) : List Char :=
  dropWhileEnd (fun c => cutset.contains c) (s.dropWhile (fun c => cutset.contains c))

/-- The function `strings.TrimSpace`. -/
def trimSpace (s : String) : String := String.mk (trimSpaceChars s.data)

/-- The function `strings.Trim`. -/
def trim (s cutset : String) : String := String.mk (trimChars cutset.data s.data)

/-- Split a character list at every occurrence of `sep`. -/
def splitOnChar (sep : Char) : List Char → List (List Char)
  | [] => [[]]
  | c :: cs =>
    match splitOnChar sep cs with
    | [] => [[]]
    | l :: ls => if c = sep then [] :: l :: ls else (c :: l) :: ls

/-- The pieces between maximal runs of characters satisfying `sp`; `cur` is the
piece being read. -/
def fieldsAux (sp : Char → Bool) : List Char → List Char → List (List Char)
  | [], cur => if cur = [] then [] else [cur]
  | c :: cs, cur =>
    if sp c then (if cur = [] then fieldsAux sp cs [] else cur :: fieldsAux sp cs [])
    else fieldsAux sp cs (cur ++ [c])

/-- The function `strings.Fields` on character lists. -/
def fieldsChars (s : List Char) : List (List Char) := fieldsAux isSpace s []

/-- The function `filepath.Base` for the separator `/`. -/
def filepathBase (path : String) : String :=
  if path.data = [] then "."
  else
    let p := dropWhileEnd (fun c => c = '/') path.data
    if p = [] then "/"
    else String.mk (p.reverse.takeWhile (fun c => c ≠ '/')).reverse

/-! ## Package `regexp` -/

/-- Abstract syntax of the patterns: the empty pattern, a one-character class,
concatenation, alternation (left preferred), repetition `*` (greedy when the
flag is set, else `*?`) and a numbered capturing group. -/
inductive Re where
  | eps : Re
  | cls : (Char → Bool) → Re
  | seq : Re → Re → Re
  | alt : Re → Re → Re
  | star : Bool → Re → Re
  | group : Nat → Re → Re

/-- Capture bindings, the most recent one first. -/
abbrev Caps := List (Nat × List Char)

/-- All ways `body*` matches a prefix of the input, in backtracking order.  An
iteration has to consume input; the counter bounds the number of iterations by
the length of the input. -/
def starMs (body : List Char → Caps → List (List Char × Caps)) (greedy : Bool) :
    Nat → List Char → Caps → List (List Char × Caps)
  | 0, s, c => [(s, c)]
  | n + 1, s, c =>
    let more := ((body s c).filter (fun r => decide (r.1.length < s.length))).flatMap
      (fun r => starMs body greedy n r.1 r.2)
    if greedy then more ++ [(s, c)] else (s, c) :: more

/-- All ways the pattern matches a prefix of the input, in the order a
backtracking search finds them: each result is the unread rest of the input
with the capture bindings. -/
def Re.ms : Re → List Char → Caps → List (List Char × Caps)
  | .eps, s, c => [(s, c)]
  | .cls _, [], _ => []
  | .cls p, x :: xs, c => if p x then [(xs, c)] else []
  | .seq a b, s, c => (a.ms s c).flatMap (fun r => b.ms r.1 r.2)
  | .alt a b, s, c => a.ms s c ++ b.ms s c
  | .star g r, s, c => starMs r.ms g s.length s c
  | .group i r, s, c =>
    (r.ms s c).map (fun q => (q.1, (i, s.take (s.length - q.1.length)) :: q.2))

/-- The pattern `r+`, or `r+?` when the flag is unset. -/
def Re.plus (g : Bool) (r : Re) : Re := .seq r (.star g r)

/-- The pattern `r?`. -/
def Re.opt (r : Re) : Re := .alt r .eps

/-- The pattern matching exactly the character `x`. -/
def Re.chr (x : Char) : Re := .cls (fun c => c == x)

/-- The pattern matching a literal text. -/
def Re.lit : List Char → Re
  | [] => .eps
  | [x] => Re.chr x
  | x :: xs => .seq (Re.chr x) (Re.lit xs)

/-- The concatenation of a list of patterns. -/
def Re.cat : List Re → Re
  | [] => .eps
  | [r] => r
  | r :: rs => .seq r (Re.cat rs)

/-- The number of capturing groups (the largest group number). -/
def Re.numSubexp : Re → Nat
  | .eps => 0
  | .cls _ => 0
  | .seq a b => max a.numSubexp b.numSubexp
  | .alt a b => max a.numSubexp b.numSubexp
  | .star _ r => r.numSubexp
  | .group i r => max i r.numSubexp

/-- The class `\s` of the pattern language: `[\t\n\f\r ]`. -/
def isReSpace (c : Char) : Bool :=
  c == '\t' || c == '\n' || c == Char.ofNat 12 || c == '\r' || c == ' '

/-- The pattern `\s`. -/
def reS : Re := .cls isReSpace

/-- The pattern `\S`, also written `[^\s]`. -/
def reNS : Re := .cls (fun c => !isReSpace c)

/-- The pattern `.`: any character but the newline. -/
def reDot : Re := .cls (fun c => c != '\n')

/-- The text of capture group `i`; a group that took no part is the empty text. -/
def capText (c : Caps) (i : Nat) : String :=
  match c.find? (fun p => p.1 == i) with
  | some p => String.mk p.2
  | none => ""

/-- One element of the result of `FindAllStringSubmatch`: the whole match and
then each group, so the length is one more than the number of groups. -/
def submatch (re : Re) (c : Caps) : List String :=
  (List.range (re.numSubexp + 1)).map (capText c)

/-- The scan of `FindAllStringSubmatch` along the input.  `skip` counts the
characters still covered by the previous match, and `adj` tells that a match
ended exactly here: an empty match at such a place is not reported. -/
def findAllAux (re : Re) : List Char → Nat → Bool → List (List String)
  | [], 0, adj =>
    match (Re.ms (.group 0 re) [] []).head? with
    | some r => if adj then [] else [submatch re r.2]
    | none => []
  | [], _ + 1, _ => []
  | _ :: xs, k + 1, adj => findAllAux re xs k adj
  | x :: xs, 0, adj =>
    match (Re.ms (.group 0 re) (x :: xs) []).head? with
    | none => findAllAux re xs 0 false
    | some r =>
      let n := (x :: xs).length - r.1.length
      if n = 0 then (if adj then [] else [submatch re r.2]) ++ findAllAux re xs 0 false
      else submatch re r.2 :: findAllAux re xs (n - 1) true

/-- The method `FindAllStringSubmatch(content, -1)`. -/
def findAllStringSubmatch (re : Re) (content : String) : List (List String) :=
  findAllAux re content.data 0 false

/-! ## Package `encoding/json` -/

/-- The value `json.Unmarshal` stores in an `interface{}`: `nil`, `bool`,
`float64` (kept as the literal), `string`, `[]interface{}` or
`map[string]interface{}`. -/
inductive JVal where
  | null : JVal
  | bool : Bool → JVal
  | num : String → JVal
  | str : String → JVal
  | arr : List JVal → JVal
  | obj : List (String × JVal) → JVal

/-- The map read `m[k]` of a `map[string]interface{}`. -/
def jget : List (String × JVal) → String → Option JVal
  | [], _ => none
  | (k, v) :: m, key => if k = key then some v else jget m key

/-- The map write `m[k] = v` of a `map[string]interface{}`. -/
def jset : List (String × JVal) → String → JVal → List (String × JVal)
  | [], key, val => [(key, val)]
  | (k, v) :: m, key, val => if k = key then (k, val) :: m else (k, v) :: jset m key val

/-- The four characters JSON allows between tokens. -/
def isJsonSpace (c : Char) : Bool := c == ' ' || c == '\t' || c == '\r' || c == '\n'

/-- The double quote. -/
def dq : Char := Char.ofNat 34

/-- The value of a hexadecimal digit. -/
def hexVal (c : Char) : Option Nat :=
  let n := c.toNat
  if 48 ≤ n ∧ n ≤ 57 then some (n - 48)
  else if 97 ≤ n ∧ n ≤ 102 then some (n - 87)
  else if 65 ≤ n ∧ n ≤ 70 then some (n - 55)
  else none

/-- The number written by four hexadecimal digits. -/
def hex4 (a b c d : Char) : Option Nat :=
  match hexVal a, hexVal b, hexVal c, hexVal d with
  | some x, some y, some z, some w => some (((x * 16 + y) * 16 + z) * 16 + w)
  | _, _, _, _ => none

/-- One escape sequence, read after its backslash: the character it denotes
and the number of characters it takes up.  As in `encoding/json`, a surrogate
that is not half of a valid pair denotes U+FFFD. -/
def jsonEscape : List Char → Option (Char × Nat)
  | 'u' :: h1 :: h2 :: h3 :: h4 :: rest =>
    match hex4 h1 h2 h3 h4 with
    | none => none
    | some u =>
      if 55296 ≤ u ∧ u < 56320 then
        match rest with
        | '\\' :: 'u' :: l1 :: l2 :: l3 :: l4 :: _ =>
          match hex4 l1 l2 l3 l4 with
          | some l =>
            if 56320 ≤ l ∧ l < 57344 then
              some (Char.ofNat (65536 + (u - 55296) * 1024 + (l - 56320)), 11)
            else some (Char.ofNat 65533, 5)
          | none => some (Char.ofNat 65533, 5)
        | _ => some (Char.ofNat 65533, 5)
      else if 56320 ≤ u ∧ u < 57344 then some (Char.ofNat 65533, 5)
      else some (Char.ofNat u, 5)
  | e :: _ =>
    if e = dq then some (dq, 1)
    else if e = '\\' then some ('\\', 1)
    else if e = '/' then some ('/', 1)
    else if e = 'b' then some (Char.ofNat 8, 1)
    else if e = 'f' then some (Char.ofNat 12, 1)
    else if e = 'n' then some ('\n', 1)
    else if e = 'r' then some ('\r', 1)
    else if e = 't' then some ('\t', 1)
    else none
  | [] => none

/-- The body of a string literal after its opening quote, with the escapes
decoded; `skip` counts the characters of an escape sequence still to pass and
`cur` holds the decoded text in reverse. -/
def jsonString : List Char → Nat → List Char → Option (String × List Char)
  | [], _, _ => none
  | _ :: cs, k + 1, cur => jsonString cs k cur
  | c :: cs, 0, cur =>
    if c = dq then some (String.mk cur.reverse, cs)
    else if c.toNat < 32 then none
    else if c = '\\' then
      match jsonEscape cs with
      | some (ch, k) => jsonString cs k (ch :: cur)
      | none => none
    else jsonString cs 0 (c :: cur)

/-- The number written by a run of decimal digits. -/
def digitsToNat (ds : List Char) : Nat :=
  ds.foldl (fun n c => 10 * n + (c.toNat - 48)) 0

/-- The least magnitude that `strconv.ParseFloat(s, 64)` rounds to infinity:
half way from the largest `float64` to `2^1024`, that is `2^1024 - 2^970`. -/
def float64Limit : Nat :=
  179769313486231580793728971405303415079934132710037826936173778980444968292764750946649017977587207096330286416692887910946555547851940402630657488671505820681908902000708383676273854845817711531764475730270069855571366959622842914819860834936475292719074168444365510704342711559699508093042880177904174497792

/-- Whether the number with the digits `intPart.frac` and the decimal exponent
`expo` (negative when `expNeg`) is out of the range of `float64`, in which case
`strconv.ParseFloat` fails and `json.Unmarshal` returns an error.  A number too
small for `float64` is read as zero without an error. -/
def float64Overflows (intPart frac : List Char) (expNeg : Bool) (expo : Nat) : Bool :=
  let m := digitsToNat (intPart ++ frac)
  if m = 0 then false
  else if expNeg then
    let k := expo + frac.length
    if (intPart ++ frac).length < k then false else decide (float64Limit * 10 ^ k ≤ m)
  else if frac.length ≤ expo then
    let e := expo - frac.length
    if 310 < e then true else decide (float64Limit ≤ m * 10 ^ e)
  else
    let k := frac.length - expo
    if (intPart ++ frac).length < k then false else decide (float64Limit * 10 ^ k ≤ m)

/-- A number literal `-?(0|[1-9][0-9]*)(\.[0-9]+)?([eE][+-]?[0-9]+)?` at the
head of the input whose value is in the range of `float64`. -/
def jsonNumber (s : List Char) : Option (String × List Char) :=
  let (sign, s1) := match s with
    | '-' :: r => (['-'], r)
    | _ => ([], s)
  let intPart := match s1 with
    | '0' :: _ => ['0']
    | _ => s1.takeWhile Char.isDigit
  if intPart = [] then none
  else
    let s2 := s1.drop intPart.length
    let fr : Option (List Char × List Char) := match s2 with
      | '.' :: r =>
        let ds := r.takeWhile Char.isDigit
        if ds = [] then none else some (ds, r.drop ds.length)
      | _ => some ([], s2)
    match fr with
    | none => none
    | some (frac, s3) =>
      let ex : Option (List Char × Bool × List Char × List Char) := match s3 with
        | e :: r =>
          if e = 'e' ∨ e = 'E' then
            let (sg, r1) := match r with
              | '+' :: t => (['+'], t)
              | '-' :: t => (['-'], t)
              | _ => ([], r)
            let ds := r1.takeWhile Char.isDigit
            if ds = [] then none else some (e :: sg, decide (sg = ['-']), ds, r1.drop ds.length)
          else some ([], false, [], s3)
        | [] => some ([], false, [], s3)
      match ex with
      | none => none
      | some (mark, expNeg, expDigits, s4) =>
        if float64Overflows intPart frac expNeg (digitsToNat expDigits) then none
        else
          some (String.mk (sign ++ intPart ++ (if frac = [] then [] else '.' :: frac) ++
            mark ++ expDigits), s4)

/-- The elements of an array after the first one: `, value` repeated up to the
closing bracket. -/
def jsonElems (value : List Char → Option (JVal × List Char)) :
    Nat → List Char → List JVal → Option (JVal × List Char)
  | 0, _, _ => none
  | n + 1, s, acc =>
    match s.dropWhile isJsonSpace with
    | ']' :: r => some (.arr acc.reverse, r)
    | ',' :: r =>
      match value r with
      | some (v, r1) => jsonElems value n r1 (v :: acc)
      | none => none
    | _ => none

/-- One member `"key" : value` of an object. -/
def jsonMember (value : List Char → Option (JVal × List Char)) (s : List Char) :
    Option ((String × JVal) × List Char) :=
  match s.dropWhile isJsonSpace with
  | q :: r =>
    if q = dq then
      match jsonString r 0 [] with
      | some (k, r1) =>
        match r1.dropWhile isJsonSpace with
        | ':' :: r2 =>
          match value r2 with
          | some (v, r3) => some ((k, v), r3)
          | none => none
        | _ => none
      | none => none
    else none
  | [] => none

/-- The members of an object after the first one, up to the closing brace; a
repeated key overwrites the earlier binding. -/
def jsonMembers (value : List Char → Option (JVal × List Char)) :
    Nat → List Char → List (String × JVal) → Option (JVal × List Char)
  | 0, _, _ => none
  | n + 1, s, acc =>
    match s.dropWhile isJsonSpace with
    | c :: r =>
      if c = Char.ofNat 125 then some (.obj acc, r)
      else if c = ',' then
        match jsonMember value r with
        | some (kv, r1) => jsonMembers value n r1 (jset acc kv.1 kv.2)
        | none => none
      else none
    | [] => none

/-- A string, a literal name or a number at the head of the input. -/
def jsonScalar (s : List Char) : Option (JVal × List Char) :=
  match s with
  | [] => none
  | c :: r =>
    if c = dq then
      match jsonString r 0 [] with
      | some (t, r1) => some (.str t, r1)
      | none => none
    else
      match c :: r with
      | 't' :: 'r' :: 'u' :: 'e' :: r1 => some (.bool true, r1)
      | 'f' :: 'a' :: 'l' :: 's' :: 'e' :: r1 => some (.bool false, r1)
      | 'n' :: 'u' :: 'l' :: 'l' :: r1 => some (.null, r1)
      | _ =>
        match jsonNumber (c :: r) with
        | some (t, r1) => some (.num t, r1)
        | none => none

/-- The constant `maxNestingDepth` of `encoding/json`: more open objects and
arrays than this is the error `exceeded max depth`. -/
def maxNestingDepth : Nat := 10000

/-- One JSON value at the head of the input, with leading white space; the
counter is the number of objects and arrays that may still be opened. -/
def jsonValue : Nat → List Char → Option (JVal × List Char)
  | 0, s =>
    match s.dropWhile isJsonSpace with
    | [] => none
    | c :: r => if c = Char.ofNat 123 ∨ c = '[' then none else jsonScalar (c :: r)
  | n + 1, s =>
    match s.dropWhile isJsonSpace with
    | [] => none
    | c :: r =>
      if c = Char.ofNat 123 then
        match r.dropWhile isJsonSpace with
        | c1 :: r1 =>
          if c1 = Char.ofNat 125 then some (.obj [], r1)
          else
            match jsonMember (jsonValue n) r with
            | some (kv, r2) => jsonMembers (jsonValue n) r2.length.succ r2 [kv]
            | none => none
        | [] => none
      else if c = '[' then
        match r.dropWhile isJsonSpace with
        | ']' :: r1 => some (.arr [], r1)
        | _ =>
          match jsonValue n r with
          | some (v, r2) => jsonElems (jsonValue n) r2.length.succ r2 [v]
          | none => none
      else jsonScalar (c :: r)

/-- A whole JSON text: one value and nothing but white space after it. -/
def jsonParse (content : String) : Option JVal :=
  match jsonValue maxNestingDepth content.data with
  | some (v, rest) => if rest.dropWhile isJsonSpace = [] then some v else none
  | none => none

/-- The call `json.Unmarshal([]byte(content), &pkgData)` with `pkgData` a nil
`map[string]interface{}`: `none` is a non-nil error (a syntax error, too deep
a nesting, a number out of the range of `float64`, or a value that is no
object), otherwise the map that `pkgData` holds afterwards.  The text `null`
leaves the map nil (no entries). -/
def jsonUnmarshal (content : String) : Option (List (String × JVal)) :=
  match jsonParse content with
  | some (.obj m) => some m
  | some .null => some []
  | _ => none

/-! ## The program -/

/-- The struct `GithubFile`; the field `Typ` is the field `Type` of the source. -/
structure GithubFile where
  Name : String
  Typ : String
  Path : String
  deriving DecidableEq, Repr

/-- The package-level list `dependencyFiles`. -/
def dependencyFiles : List String :=
  ["package.json", "requirements.txt", "Pipfile", "pyproject.toml", "pom.xml",
   "build.gradle", "go.mod", "go.sum", "Cargo.toml", "Cargo.lock"]

/-- The function `contains`. -/
def contains : List String → String → Bool
  | [], _ => false
  | item :: list, element => if item = element then true else contains list element

/-- The function `determineEcosystem`. -/
def determineEcosystem (fileName : String) : String :=
  match fileName with
  | "package.json" => "npm"
  | "requirements.txt" => "PyPI"
  | "Pipfile" => "PyPI"
  | "pyproject.toml" => "PyPI"
  | "go.mod" => "Go"
  | "go.sum" => "Go"
  | "Cargo.toml" => "crates.io"
  | "Cargo.lock" => "crates.io"
  | "pom.xml" => "Maven"
  | "build.gradle" => "Gradle"
  | _ => "unknown"

/-- The function `normalizeVersion`. -/
def normalizeVersion (version : String) : String :=
  trim (trimSpace version) "^~<>="

/-- The pattern `(\S+)==(\S+)` of the `requirements.txt` case. -/
def reRequirements : Re :=
  Re.cat [.group 1 (reNS.plus true), Re.lit "==".data, .group 2 (reNS.plus true)]

/-- The class `[a-zA-Z0-9-_]`. -/
def isPipfileName (c : Char) : Bool :=
  ('a' ≤ c && c ≤ 'z') || ('A' ≤ c && c ≤ 'Z') || ('0' ≤ c && c ≤ '9') || c == '-' || c == '_'

/-- The pattern `\[\[source\]]|([a-zA-Z0-9-_]+)\s*=\s*"(.*)"` of the `Pipfile`
case. -/
def rePipfile : Re :=
  .alt (Re.lit "[[source]]".data)
    (Re.cat [.group 1 (Re.plus true (.cls isPipfileName)), .star true reS, Re.chr '=',
      .star true reS, Re.chr dq, .group 2 (.star true reDot), Re.chr dq])

/-- The pattern
`<dependency>\s*<groupId>(.*?)</groupId>\s*<artifactId>(.*?)</artifactId>\s*<version>(.*?)</version>`
of the `pom.xml` case. -/
def rePom : Re :=
  Re.cat [Re.lit "<dependency>".data, .star true reS, Re.lit "<groupId>".data,
    .group 1 (.star false reDot), Re.lit "</groupId>".data, .star true reS,
    Re.lit "<artifactId>".data, .group 2 (.star false reDot), Re.lit "</artifactId>".data,
    .star true reS, Re.lit "<version>".data, .group 3 (.star false reDot),
    Re.lit "</version>".data]

/-- The pattern `implementation\s+"(.*?)":"(.*?)"` of the `build.gradle` case. -/
def reGradle : Re :=
  Re.cat [Re.lit "implementation".data, reS.plus true, Re.chr dq, .group 1 (.star false reDot),
    Re.chr dq, Re.chr ':', Re.chr dq, .group 2 (.star false reDot), Re.chr dq]

/-- The pattern `require\s*\(\n?((?:\s*[^\s]+\s+[^\s]+\n?)+)\)` of the `go.mod`
case. -/
def reGoMod : Re :=
  Re.cat [Re.lit "require".data, .star true reS, Re.chr '(', (Re.chr '\n').opt,
    .group 1 (Re.plus true (Re.cat [.star true reS, reNS.plus true, reS.plus true,
      reNS.plus true, (Re.chr '\n').opt])),
    Re.chr ')']

/-- The pattern `(\S+)\s+(\S+)\s+(\S+)` of the `go.sum` case. -/
def reGoSum : Re :=
  Re.cat [.group 1 (reNS.plus true), reS.plus true, .group 2 (reNS.plus true), reS.plus true,
    .group 3 (reNS.plus true)]

/-- The pattern `name\s*=\s*"(.*?)"\nversion\s*=\s*"(.*?)"` of the `Cargo.toml`
and `Cargo.lock` case. -/
def reCargo : Re :=
  Re.cat [Re.lit "name".data, .star true reS, Re.chr '=', .star true reS, Re.chr dq,
    .group 1 (.star false reDot), Re.chr dq, Re.chr '\n', Re.lit "version".data, .star true reS,
    Re.chr '=', .star true reS, Re.chr dq, .group 2 (.star false reDot), Re.chr dq]

/-- The element `match[i]` of a submatch slice. -/
def idx (m : List String) (i : Nat) : String := m.getD i ""

/-- The loop `for pkgName, ver := range deps` of the `package.json` case: the
type assertion `ver.(string)` panics on a value that is not a string. -/
def packageJsonDeps : List (String × JVal) → GoMap → Outcome GoMap
  | [], packages => .ret packages
  | (pkgName, .str ver) :: deps, packages =>
    packageJsonDeps deps (packages.set pkgName (normalizeVersion ver))
  | (_, _) :: _, _ => .panic

/-- The function `extractPackages`.  The parameter `tomlDecode` stands for
`toml.Decode` into the struct of the `pyproject.toml` case: `none` is a
non-nil error, otherwise the map `Tool.Poetry.Dependencies` that was read. -/
def extractPackages (tomlDecode : String → Option GoMap) (fileName content : String) :
    Outcome GoMap :=
  match fileName with
  | "package.json" =>
    match jsonUnmarshal content with
    | some pkgData =>
      match jget pkgData "dependencies" with
      | some (.obj deps) => packageJsonDeps deps []
      | _ => .ret []
    | none => .ret []
  | "requirements.txt" =>
    .ret ((findAllStringSubmatch reRequirements content).foldl
      (fun packages m => packages.set (idx m 1) (idx m 2)) [])
  | "Pipfile" =>
    .ret ((findAllStringSubmatch rePipfile content).foldl
      (fun packages m => if m.length = 3 then packages.set (idx m 1) (idx m 2) else packages) [])
  | "pyproject.toml" =>
    match tomlDecode content with
    | some deps =>
      .ret (deps.foldl (fun packages kv => packages.set kv.1 (normalizeVersion kv.2)) [])
    | none => .ret []
  | "pom.xml" =>
    .ret ((findAllStringSubmatch rePom content).foldl
      (fun packages m =>
        if m.length = 4 then packages.set (idx m 1 ++ ":" ++ idx m 2) (idx m 3) else packages) [])
  | "build.gradle" =>
    .ret ((findAllStringSubmatch reGradle content).foldl
      (fun packages m => if m.length = 3 then packages.set (idx m 1) (idx m 2) else packages) [])
  | "go.mod" =>
    .ret ((findAllStringSubmatch reGoMod content).foldl
      (fun packages m =>
        (splitOnChar '\n' (idx m 1).data).foldl
          (fun packages line =>
            match fieldsChars line with
            | [p0, p1] => packages.set (String.mk p0) (String.mk p1)
            | _ => packages) packages) [])
  | "go.sum" =>
    .ret ((findAllStringSubmatch reGoSum content).foldl
      (fun packages m => if m.length = 4 then packages.set (idx m 1) (idx m 2) else packages) [])
  | "Cargo.toml" =>
    .ret ((findAllStringSubmatch reCargo content).foldl
      (fun packages m => if m.length = 3 then packages.set (idx m 1) (idx m 2) else packages) [])
  | "Cargo.lock" =>
    .ret ((findAllStringSubmatch reCargo content).foldl
      (fun packages m => if m.length = 3 then packages.set (idx m 1) (idx m 2) else packages) [])
  | _ => .ret []

/-- What a run does that can be observed from outside. -/
inductive Event where
  | handed (filePath : String)
  | extracted (name version : String)
  | query (pkgName version ecosystem : String)
  | queryFailed (pkgName version ecosystem : String)
  | dirFailed (path : String)
  | fileFailed (path : String)
  deriving DecidableEq, Repr

/-- The external services: `toml.Decode`, and the HTTP wrappers `fetchFiles`,
`fetchFileContent` and `checkVulnerabilities`, each returning its value or an
error (for `checkVulnerabilities`, `some` error or `none` for nil). -/
structure Env where
  tomlDecode : String → Option GoMap
  fetchFiles : String → String → Except String (List GithubFile)
  fetchFileContent : String → String → Except String String
  checkVulnerabilities : String → String → String → Option String

/-- The loop `for name, version := range packages` of `processDependencyFile`. -/
def queryLoop (E : Env) (ecosystem : String) : GoMap → List Event
  | [] => []
  | (name, version) :: packages =>
    Event.extracted name version ::
      ((if version ≠ "" then
          Event.query name version ecosystem ::
            (match E.checkVulnerabilities name version ecosystem with
              | some _ => [Event.queryFailed name version ecosystem]
              | none => [])
        else []) ++ queryLoop E ecosystem packages)

/-- The function `processDependencyFile`: the events of the call and its
outcome, the returned error (`none` for nil) or a panic. -/
def processDependencyFile (E : Env) (repo filePath : String) :
    List Event × Outcome (Option String) :=
  match E.fetchFileContent repo filePath with
  | .error e => ([Event.handed filePath], .ret (some ("error fetching " ++ filePath ++ ": " ++ e)))
  | .ok content =>
    let fileName := filepathBase filePath
    match extractPackages E.tomlDecode fileName content with
    | .panic => ([Event.handed filePath], .panic)
    | .ret packages =>
      (Event.handed filePath :: queryLoop E (determineEcosystem fileName) packages, .ret none)

/-- The loop `for _, file := range files` shared by `processRepo` and
`processDirectory`, with `recurse` the call of `processDirectory`.  The result
is `none` when a call of `recurse` did not complete; a panic ends the loop. -/
def walkEntries (E : Env) (repo : String)
    (recurse : String → Option (List Event × Outcome (Option String))) :
    List GithubFile → Option (List Event × Outcome Unit)
  | [] => some ([], .ret ())
  | file :: files =>
    let step : Option (List Event × Outcome (Option String)) :=
      if file.Typ = "dir" then
        match recurse file.Path with
        | some (ev, .ret (some _)) => some (ev ++ [Event.dirFailed file.Path], .ret none)
        | r => r
      else if contains dependencyFiles file.Name then
        match processDependencyFile E repo file.Path with
        | (ev, .ret (some _)) => some (ev ++ [Event.fileFailed file.Path], .ret none)
        | r => some r
      else some ([], .ret none)
    match step with
    | none => none
    | some (ev, .panic) => some (ev, .panic)
    | some (ev, .ret _) =>
      match walkEntries E repo recurse files with
      | none => none
      | some (ev2, out) => some (ev ++ ev2, out)

/-- The function `processDirectory`.  The counter bounds the depth of the
recursion; `none` means that it was used up. -/
def processDirectory (E : Env) (repo : String) : Nat → String →
    Option (List Event × Outcome (Option String))
  | 0, _ => none
  | n + 1, path =>
    match E.fetchFiles repo path with
    | .error e =>
      some ([], .ret (some ("error fetching files from directory " ++ path ++ ": " ++ e)))
    | .ok files =>
      match walkEntries E repo (processDirectory E repo n) files with
      | none => none
      | some (ev, .panic) => some (ev, .panic)
      | some (ev, .ret _) => some (ev, .ret none)

/-- The function `processRepo`, with the depth bound of `processDirectory`. -/
def processRepo (E : Env) (repo : String) (depth : Nat) :
    Option (List Event × Outcome (Option String)) :=
  match E.fetchFiles repo "" with
  | .error e => some ([], .ret (some ("error fetching root directory: " ++ e)))
  | .ok files =>
    match walkEntries E repo (processDirectory E repo depth) files with
    | none => none
    | some (ev, .panic) => some (ev, .panic)
    | some (ev, .ret _) => some (ev, .ret none)

/-- The listings below `path` form a finite tree: every chain of successfully
listed directories starting at `path` ends. -/
inductive FiniteTree (E : Env) (repo : String) : String → Prop where
  | node (path : String) :
    (∀ files, E.fetchFiles repo path = Except.ok files →
      ∀ d ∈ files, d.Typ = "dir" → FiniteTree E repo d.Path) →
    FiniteTree E repo path

/-- `Listed E repo path files`: `files` is the listing of `path` or of a
directory below it, and every directory from `path` down to that one lists
successfully. -/
inductive Listed (E : Env) (repo : String) : String → List GithubFile → Prop where
  | here (path : String) (files : List GithubFile) :
    E.fetchFiles repo path = Except.ok files → Listed E repo path files
  | deeper (path : String) (files : List GithubFile) (d : GithubFile) (sub : List GithubFile) :
    E.fetchFiles repo path = Except.ok files → d ∈ files → d.Typ = "dir" →
    Listed E repo d.Path sub → Listed E repo path sub

/-- Every manifest file of every listing reachable from `path` was handed to
`processDependencyFile` in the events `ev`. -/
def Covers (E : Env) (repo path : String) (ev : List Event) : Prop :=
  ∀ sub, Listed E repo path sub → ∀ f ∈ sub, f.Typ ≠ "dir" →
    f.Name ∈ dependencyFiles → Event.handed f.Path ∈ ev

/-- A stand-in for `toml.Decode` that rejects every input; the cases other than
`pyproject.toml` never call the decoder. -/
def noToml : String → Option GoMap := fun _ => none

/-- The comparator characters `^ ~ < > =` stripped by `normalizeVersion`. -/
def isComparator (c : Char) : Bool := "^~<>=".data.contains c

/-! ## Sample inputs and auxiliary predicates -/

/-- An environment whose content service serves a `requirements.txt` with two
pinned packages and whose lookup service always fails. -/
def sampleEnv : Env where
  tomlDecode := noToml
  fetchFiles := fun _ _ => Except.error "unreachable"
  fetchFileContent := fun _ _ => Except.ok "flask==2.0.1\nrequests==2.31.0"
  checkVulnerabilities := fun _ _ _ => some "OSV query failed"

/-- A repository all of whose listings succeed: the root lists the directory
`d` and then the file `go.sum`, and `d` holds a `package.json` whose one
dependency has the number `1` as its value. -/
def panicEnv : Env where
  tomlDecode := noToml
  fetchFiles := fun _ path =>
    if path = "" then Except.ok [⟨"d", "dir", "d"⟩, ⟨"go.sum", "file", "go.sum"⟩]
    else if path = "d" then Except.ok [⟨"package.json", "file", "d/package.json"⟩]
    else Except.error "404 Not Found"
  fetchFileContent := fun _ p =>
    if p = "d/package.json" then Except.ok "\x7b\"dependencies\":\x7b\"lodash\":1\x7d\x7d"
    else Except.ok "mod.example v1.0.0 h1:abc="
  checkVulnerabilities := fun _ _ _ => none

/-- A repository whose root lists a directory that cannot be listed, a
directory holding a `go.sum`, and a `package.json` whose content cannot be
fetched. -/
def walkEnv : Env where
  tomlDecode := noToml
  fetchFiles := fun _ path =>
    if path = "" then
      Except.ok [⟨"broken", "dir", "broken"⟩, ⟨"svc", "dir", "svc"⟩,
        ⟨"package.json", "file", "package.json"⟩]
    else if path = "svc" then Except.ok [⟨"go.sum", "file", "svc/go.sum"⟩]
    else Except.error "404 Not Found"
  fetchFileContent := fun _ p =>
    if p = "svc/go.sum" then Except.ok "mod.example v1.0.0 h1:abc=" else Except.error "failed"
  checkVulnerabilities := fun _ _ _ => none

/-- The rests `body*` can leave for a one-character class, longest match first. -/
def backoffs (p : Char → Bool) : List Char → List (List Char)
  | [] => [[]]
  | x :: xs => if p x then backoffs p xs ++ [x :: xs] else [x :: xs]

/-- The pieces of a text between runs of characters of the class `\s`. -/
def reFields (s : List Char) : List (List Char) := fieldsAux isReSpace s []

/-- The first piece of a text between runs of `\s`, with the text after it. -/
def nextField (s : List Char) : Option (List Char × List Char) :=
  match s.dropWhile isReSpace with
  | [] => none
  | x :: xs =>
    some (x :: xs.takeWhile (fun c => !isReSpace c), xs.dropWhile (fun c => !isReSpace c))

/-- The fields taken three at a time: the first and second of each group. -/
def triples : List (List Char) → List (String × String)
  | a :: b :: _ :: rest => (String.mk a, String.mk b) :: triples rest
  | _ => []

/-- The entry a line with exactly three fields stands for. -/
def goSumLine (line : List Char) : Option (String × String) :=
  match reFields line with
  | [a, b, _] => some (String.mk a, String.mk b)
  | _ => none

/-- The reading of the `go.sum` rule line by line: every line with three
white-space separated fields sets key = field 1 to value = field 2, later
lines overwriting earlier ones. -/
def goSumByLines (content : String) : GoMap :=
  ((splitOnChar '\n' content.data).filterMap goSumLine).foldl
    (fun packages kv => packages.set kv.1 kv.2) []

/-- The text right after a leading `==`, up to the next `\s` character, with
what follows it; `none` when the input does not start with `==` and one more
character that is not `\s`. -/
def afterEq : List Char → Option (List Char × List Char)
  | '=' :: '=' :: y :: ys =>
    if isReSpace y then none
    else some (y :: ys.takeWhile (fun c => !isReSpace c), ys.dropWhile (fun c => !isReSpace c))
  | _ => none

/-- The last place in the leading run of characters other than `\s` at which
`==` and one more such character follow: the text before that place, the text
after the `==` up to the next `\s`, and the rest. -/
def reqScan : List Char → Option (List Char × List Char × List Char)
  | [] => none
  | y :: ys =>
    if isReSpace y then none
    else
      match reqScan ys with
      | some (n, v, r) => some (y :: n, v, r)
      | none => (afterEq (y :: ys)).map (fun vr => ([], vr.1, vr.2))

/-- The entry a white-space delimited token stands for: the token is split as
`n==v` at its last `==` that has text on both sides. -/
def reqSplit (token : List Char) : Option (String × String) :=
  match token with
  | [] => none
  | x :: t => (reqScan t).map (fun nvr => (String.mk (x :: nvr.1), String.mk nvr.2.1))

/-- A `go.sum` text whose lines have three fields each, with an empty line. -/
def sampleGoSum : String := "mod.a v1.0.0 h1:abc=\n\nmod.b v0.2.0 h1:def="

theorem dropWhile_split (p : Char → Bool) (s : List Char) :
    ∃ pre, s = pre ++ s.dropWhile p ∧ (∀ x ∈ pre, p x = true) ∧
      ∀ x, (s.dropWhile p).head? = some x → p x = false := by
  refine ⟨s.takeWhile p, (List.takeWhile_append_dropWhile p s).symm, ?_, ?_⟩
  · intro x hx
    exact List.mem_takeWhile_imp hx
  · intro x hx
    induction s with
    | nil => simp at hx
    | cons a t ih =>
      by_cases h : p a = true
      · rw [List.dropWhile_cons_of_pos h] at hx
        exact ih hx
      · rw [List.dropWhile_cons_of_neg h] at hx
        simp only [List.head?_cons, Option.some.injEq] at hx
        subst hx
        simpa using h

theorem dropWhileEnd_split (p : Char → Bool) (s : List Char) :
    ∃ post, s = dropWhileEnd p s ++ post ∧ (∀ x ∈ post, p x = true) ∧
      ∀ x, (dropWhileEnd p s).getLast? = some x → p x = false := by
  obtain ⟨pre, h1, h2, h3⟩ := dropWhile_split p s.reverse
  refine ⟨pre.reverse, ?_, ?_, ?_⟩
  · have := congrArg List.reverse h1
    simpa [dropWhileEnd] using this
  · intro x hx
    exact h2 x (List.mem_reverse.mp hx)
  · intro x hx
    apply h3
    simpa [dropWhileEnd, List.getLast?_reverse] using hx

theorem dropWhileEnd_head (p : Char → Bool) (s : List Char) (x : Char)
    (h : (dropWhileEnd p s).head? = some x) : s.head? = some x := by
  obtain ⟨post, h1, -, -⟩ := dropWhileEnd_split p s
  rw [h1]
  cases hd : dropWhileEnd p s with
  | nil => rw [hd] at h; simp at h
  | cons a t => rw [hd] at h; simpa using h

/-! ## The claims -/

/-- C10: `determineEcosystem` is the fixed table of the ten manifest names, and
it answers `unknown` exactly for the names that `contains` does not find in
`dependencyFiles`. -/
theorem determineEcosystem_table :
    determineEcosystem "package.json" = "npm" ∧
    determineEcosystem "requirements.txt" = "PyPI" ∧
    determineEcosystem "Pipfile" = "PyPI" ∧
    determineEcosystem "pyproject.toml" = "PyPI" ∧
    determineEcosystem "go.mod" = "Go" ∧
    determineEcosystem "go.sum" = "Go" ∧
    determineEcosystem "Cargo.toml" = "crates.io" ∧
    determineEcosystem "Cargo.lock" = "crates.io" ∧
    determineEcosystem "pom.xml" = "Maven" ∧
    determineEcosystem "build.gradle" = "Gradle" ∧
    ∀ n : String, determineEcosystem n = "unknown" ↔ contains dependencyFiles n = false := by
  refine ⟨rfl, rfl, rfl, rfl, rfl, rfl, rfl, rfl, rfl, rfl, ?_⟩
  intro n
  unfold determineEcosystem
  split <;> simp_all [contains, dependencyFiles]
  refine ⟨?_, ?_, ?_, ?_, ?_, ?_, ?_, ?_, ?_, ?_⟩ <;> intro h <;> simp_all

/-- C9: `normalizeVersion raw` is `raw` without its leading and trailing white
space and then without its longest prefix and longest suffix of comparator
characters: `raw` splits as white space, comparators, the result, comparators,
white space, where the part between the white space neither starts nor ends
with white space and the result neither starts nor ends with a comparator.
The three values of the specification hold. -/
theorem normalizeVersion_spec (raw : String) :
    (∃ ws1 c1 c2 ws2 : List Char,
      raw.data = ws1 ++ (c1 ++ (normalizeVersion raw).data ++ c2) ++ ws2 ∧
      (∀ x ∈ ws1, isSpace x = true) ∧ (∀ x ∈ ws2, isSpace x = true) ∧
      (∀ x, (c1 ++ (normalizeVersion raw).data ++ c2).head? = some x → isSpace x = false) ∧
      (∀ x, (c1 ++ (normalizeVersion raw).data ++ c2).getLast? = some x → isSpace x = false) ∧
      (∀ x ∈ c1, isComparator x = true) ∧ (∀ x ∈ c2, isComparator x = true) ∧
      (∀ x, (normalizeVersion raw).data.head? = some x → isComparator x = false) ∧
      (∀ x, (normalizeVersion raw).data.getLast? = some x → isComparator x = false)) ∧
    normalizeVersion " ^1.2.3 " = "1.2.3" ∧
    normalizeVersion "~=2.0" = "2.0" ∧
    normalizeVersion "" = "" := by
  refine ⟨?_, by decide, by decide, by decide⟩
  obtain ⟨ws1, h1, h2, h3⟩ := dropWhile_split isSpace raw.data
  obtain ⟨ws2, h4, h5, h6⟩ := dropWhileEnd_split isSpace (raw.data.dropWhile isSpace)
  obtain ⟨c1, h7, h8, h9⟩ := dropWhile_split isComparator (trimSpaceChars raw.data)
  obtain ⟨c2, h10, h11, h12⟩ :=
    dropWhileEnd_split isComparator ((trimSpaceChars raw.data).dropWhile isComparator)
  have hn : (normalizeVersion raw).data =
      dropWhileEnd isComparator ((trimSpaceChars raw.data).dropWhile isComparator) := rfl
  have hmid : c1 ++ (normalizeVersion raw).data ++ c2 = trimSpaceChars raw.data := by
    rw [hn, List.append_assoc, ← h10, ← h7]
  refine ⟨ws1, c1, c2, ws2, ?_, h2, h5, ?_, ?_, h8, h11, ?_, ?_⟩
  · rw [hmid]
    unfold trimSpaceChars
    rw [List.append_assoc, ← h4, ← h1]
  · intro x hx
    rw [hmid] at hx
    exact h3 x (dropWhileEnd_head isSpace _ x hx)
  · intro x hx
    rw [hmid] at hx
    exact h6 x hx
  · intro x hx
    rw [hn] at hx
    exact h9 x (dropWhileEnd_head isComparator _ x hx)
  · intro x hx
    rw [hn] at hx
    exact h12 x hx

/-- C1: on the manifest `{"dependencies":{"lodash":1}}` the call
`extractPackages("package.json", content)` panics at the type assertion
`ver.(string)` instead of returning a mapping. -/
theorem extractPackages_panics_on_non_string_dependency :
    extractPackages noToml "package.json" "\x7b\"dependencies\":\x7b\"lodash\":1\x7d\x7d" =
      Outcome.panic := by
  decide

/-- C6: for the `Pipfile` content `[[source]]` the result of `extractPackages`
holds the entry with the empty name and the empty version: the test
`len(match) == 3` holds for every match, also for the section marker. -/
theorem extractPackages_pipfile_source_marker :
    extractPackages noToml "Pipfile" "[[source]]" = Outcome.ret [("", "")] := by
  decide

/-! ### The lookup loop -/

theorem query_mem_queryLoop (E : Env) (eco : String) (packages : GoMap) (n v e : String) :
    Event.query n v e ∈ queryLoop E eco packages ↔ (n, v) ∈ packages ∧ v ≠ "" ∧ e = eco := by
  induction packages with
  | nil => simp [queryLoop]
  | cons kv rest ih =>
    obtain ⟨k, w⟩ := kv
    unfold queryLoop
    by_cases hw : w = ""
    · subst hw
      simp only [ne_eq, not_true_eq_false, ↓reduceIte, List.nil_append, List.mem_cons,
        reduceCtorEq, false_or, ih, Prod.mk.injEq]
      constructor
      · rintro ⟨h1, h2, h3⟩
        exact ⟨Or.inr h1, h2, h3⟩
      · rintro ⟨h1 | h1, h2, h3⟩
        · exact absurd h1.2 h2
        · exact ⟨h1, h2, h3⟩
    · simp only [ne_eq, hw, not_false_eq_true, ↓reduceIte, List.cons_append, List.mem_cons,
        reduceCtorEq, false_or, Event.query.injEq, List.mem_append, ih, Prod.mk.injEq]
      constructor
      · rintro (⟨h1, h2, h3⟩ | h | ⟨h1, h2, h3⟩)
        · subst h1 h2 h3
          exact ⟨Or.inl ⟨rfl, rfl⟩, hw, rfl⟩
        · cases hc : E.checkVulnerabilities k w eco <;> simp [hc] at h
        · exact ⟨Or.inr h1, h2, h3⟩
      · rintro ⟨⟨h1, h2⟩ | h1, h3, h4⟩
        · exact Or.inl ⟨h1, h2, h4⟩
        · exact Or.inr (Or.inr ⟨h1, h3, h4⟩)

/-- C3: when the content of a manifest was fetched and `extractPackages`
returned the mapping `packages`, the calls of `checkVulnerabilities` made by
`processDependencyFile` are exactly the triples (name, version,
`determineEcosystem fileName`) of the entries of `packages` with a non-empty
version; no call has an empty version; and whatever the calls answer (an error
or nil), `processDependencyFile` returns nil. -/
theorem processDependencyFile_queries (E : Env) (repo filePath content : String)
    (packages : GoMap)
    (hfetch : E.fetchFileContent repo filePath = Except.ok content)
    (hext : extractPackages E.tomlDecode (filepathBase filePath) content = Outcome.ret packages) :
    (processDependencyFile E repo filePath).2 = Outcome.ret none ∧
    (∀ n v e, Event.query n v e ∈ (processDependencyFile E repo filePath).1 ↔
      (n, v) ∈ packages ∧ v ≠ "" ∧ e = determineEcosystem (filepathBase filePath)) ∧
    (∀ n e, Event.query n "" e ∉ (processDependencyFile E repo filePath).1) := by
  have hq : ∀ n v e, Event.query n v e ∈ (processDependencyFile E repo filePath).1 ↔
      (n, v) ∈ packages ∧ v ≠ "" ∧ e = determineEcosystem (filepathBase filePath) := by
    intro n v e
    simp only [processDependencyFile, hfetch, hext, List.mem_cons, reduceCtorEq, false_or]
    exact query_mem_queryLoop E _ packages n v e
  refine ⟨?_, hq, ?_⟩
  · simp only [processDependencyFile, hfetch, hext]
  · intro n e h
    exact ((hq n "" e).mp h).2.1 rfl

/-- C3 at a concrete environment. -/
theorem processDependencyFile_queries_witness :
    (processDependencyFile sampleEnv "o/r" "sub/requirements.txt").2 = Outcome.ret none ∧
    (∀ n v e, Event.query n v e ∈ (processDependencyFile sampleEnv "o/r" "sub/requirements.txt").1 ↔
      (n, v) ∈ [("flask", "2.0.1"), ("requests", "2.31.0")] ∧ v ≠ "" ∧
        e = determineEcosystem (filepathBase "sub/requirements.txt")) ∧
    (∀ n e, Event.query n "" e ∉ (processDependencyFile sampleEnv "o/r" "sub/requirements.txt").1) :=
  processDependencyFile_queries sampleEnv "o/r" "sub/requirements.txt"
    "flask==2.0.1\nrequests==2.31.0" [("flask", "2.0.1"), ("requests", "2.31.0")] rfl (by decide)

/-! ### The tree walk -/

theorem handed_mem_processDependencyFile (E : Env) (repo filePath : String) :
    Event.handed filePath ∈ (processDependencyFile E repo filePath).1 := by
  unfold processDependencyFile
  cases E.fetchFileContent repo filePath with
  | error e => simp
  | ok content =>
    simp only
    cases extractPackages E.tomlDecode (filepathBase filePath) content <;> simp

theorem exists_common_depth {α : Type} (P : α → Nat → Prop) (l : List α)
    (h : ∀ a ∈ l, ∃ n, ∀ m, n ≤ m → P a m) : ∃ N, ∀ a ∈ l, ∀ m, N ≤ m → P a m := by
  induction l with
  | nil => exact ⟨0, by simp⟩
  | cons a t ih =>
    obtain ⟨n1, h1⟩ := h a (List.mem_cons_self a t)
    obtain ⟨n2, h2⟩ := ih (fun b hb => h b (List.mem_cons_of_mem a hb))
    refine ⟨max n1 n2, ?_⟩
    intro b hb m hm
    rcases List.mem_cons.mp hb with rfl | hb
    · exact h1 m (le_trans (le_max_left _ _) hm)
    · exact h2 b hb m (le_trans (le_max_right _ _) hm)

theorem contains_iff (list : List String) (element : String) :
    contains list element = true ↔ element ∈ list := by
  induction list with
  | nil => simp [contains]
  | cons item rest ih =>
    by_cases h : item = element
    · simp [contains, h]
    · simp [contains, h, ih, Ne.symm h]

theorem walkEntries_covers (E : Env) (repo : String)
    (recurse : String → Option (List Event × Outcome (Option String)))
    (hnp : ∀ p, (processDependencyFile E repo p).2 ≠ Outcome.panic)
    (files : List GithubFile)
    (hrec : ∀ d ∈ files, d.Typ = "dir" →
      ∃ ev out, recurse d.Path = some (ev, Outcome.ret out) ∧ Covers E repo d.Path ev) :
    ∃ ev, walkEntries E repo recurse files = some (ev, Outcome.ret ()) ∧
      (∀ f ∈ files, f.Typ ≠ "dir" → f.Name ∈ dependencyFiles →
        Event.handed f.Path ∈ ev) ∧
      (∀ d ∈ files, d.Typ = "dir" → Covers E repo d.Path ev) := by
  induction files with
  | nil => exact ⟨[], rfl, by simp, by simp⟩
  | cons file rest ih =>
    obtain ⟨ev2, h2, hf2, hd2⟩ := ih (fun d hd => hrec d (List.mem_cons_of_mem file hd))
    by_cases hdir : file.Typ = "dir"
    · obtain ⟨ev1, out1, h1, hc1⟩ := hrec file (List.mem_cons_self file rest) hdir
      have hstep : ∃ ev, walkEntries E repo recurse (file :: rest) = some (ev ++ ev2, Outcome.ret ()) ∧
          ∀ x ∈ ev1, x ∈ ev := by
        cases out1 with
        | none => exact ⟨ev1, by simp [walkEntries, hdir, h1, h2], fun x hx => hx⟩
        | some err =>
          exact ⟨ev1 ++ [Event.dirFailed file.Path], by simp [walkEntries, hdir, h1, h2],
            fun x hx => List.mem_append_left _ hx⟩
      obtain ⟨ev, hw, hsub⟩ := hstep
      refine ⟨ev ++ ev2, hw, ?_, ?_⟩
      · intro f hf hnd hc
        rcases List.mem_cons.mp hf with rfl | hf
        · exact absurd hdir hnd
        · exact List.mem_append_right _ (hf2 f hf hnd hc)
      · intro d hd hdd
        rcases List.mem_cons.mp hd with rfl | hd
        · intro sub hs f hf hnd hc
          exact List.mem_append_left _ (hsub _ (hc1 sub hs f hf hnd hc))
        · intro sub hs f hf hnd hc
          exact List.mem_append_right _ (hd2 d hd hdd sub hs f hf hnd hc)
    · by_cases hdep : contains dependencyFiles file.Name = true
      · have hstep : ∃ ev, walkEntries E repo recurse (file :: rest) =
            some (ev ++ ev2, Outcome.ret ()) ∧ Event.handed file.Path ∈ ev := by
          have hm := handed_mem_processDependencyFile E repo file.Path
          have hp := hnp file.Path
          rcases hpf : processDependencyFile E repo file.Path with ⟨ev1, out1⟩
          rw [hpf] at hm hp
          cases out1 with
          | panic => exact absurd rfl hp
          | ret o =>
            cases o with
            | none => exact ⟨ev1, by simp [walkEntries, hdir, hdep, hpf, h2], hm⟩
            | some err =>
              exact ⟨ev1 ++ [Event.fileFailed file.Path],
                by simp [walkEntries, hdir, hdep, hpf, h2], List.mem_append_left _ hm⟩
        obtain ⟨ev, hw, hmem⟩ := hstep
        refine ⟨ev ++ ev2, hw, ?_, ?_⟩
        · intro f hf hnd hc
          rcases List.mem_cons.mp hf with rfl | hf
          · exact List.mem_append_left _ hmem
          · exact List.mem_append_right _ (hf2 f hf hnd hc)
        · intro d hd hdd sub hs f hf hnd hc
          rcases List.mem_cons.mp hd with rfl | hd
          · exact absurd hdd hdir
          · exact List.mem_append_right _ (hd2 d hd hdd sub hs f hf hnd hc)
      · refine ⟨ev2, by simp [walkEntries, hdir, hdep, h2], ?_, ?_⟩
        · intro f hf hnd hc
          rcases List.mem_cons.mp hf with rfl | hf
          · exact absurd ((contains_iff _ _).mpr hc) hdep
          · exact hf2 f hf hnd hc
        · intro d hd hdd
          rcases List.mem_cons.mp hd with rfl | hd
          · exact absurd hdd hdir
          · exact hd2 d hd hdd

theorem covers_of_listing (E : Env) (repo path : String) (files : List GithubFile)
    (ev : List Event) (hls : E.fetchFiles repo path = Except.ok files)
    (hf : ∀ f ∈ files, f.Typ ≠ "dir" → f.Name ∈ dependencyFiles →
      Event.handed f.Path ∈ ev)
    (hd : ∀ d ∈ files, d.Typ = "dir" → Covers E repo d.Path ev) :
    Covers E repo path ev := by
  intro sub hs
  cases hs with
  | here _ _ h =>
    rw [hls] at h
    cases h
    exact hf
  | deeper _ fs d _ h hmem hdir hsub =>
    rw [hls] at h
    cases h
    exact hd d hmem hdir sub hsub

theorem processDirectory_covers (E : Env) (repo : String)
    (hnp : ∀ p, (processDependencyFile E repo p).2 ≠ Outcome.panic)
    (path : String) (hfin : FiniteTree E repo path) :
    ∃ n, ∀ m, n ≤ m → ∃ ev out, processDirectory E repo m path = some (ev, Outcome.ret out) ∧
      Covers E repo path ev := by
  induction hfin with
  | node path _ ih =>
    cases hls : E.fetchFiles repo path with
    | error e =>
      refine ⟨1, fun m hm => ?_⟩
      obtain ⟨k, rfl⟩ : ∃ k, m = k + 1 := ⟨m - 1, by omega⟩
      refine ⟨[], some ("error fetching files from directory " ++ path ++ ": " ++ e),
        by simp only [processDirectory, hls], ?_⟩
      intro sub hs
      cases hs with
      | here _ _ h => rw [hls] at h; cases h
      | deeper _ _ _ _ h => rw [hls] at h; cases h
    | ok files =>
      obtain ⟨N, hN⟩ := exists_common_depth
        (fun (d : GithubFile) m => d.Typ = "dir" →
          ∃ ev out, processDirectory E repo m d.Path = some (ev, Outcome.ret out) ∧
            Covers E repo d.Path ev) files
        (fun d hd => by
          by_cases hdir : d.Typ = "dir"
          · obtain ⟨n, hn⟩ := ih files hls d hd hdir
            exact ⟨n, fun m hm _ => hn m hm⟩
          · exact ⟨0, fun m _ h => absurd h hdir⟩)
      refine ⟨N + 1, fun m hm => ?_⟩
      obtain ⟨k, rfl⟩ : ∃ k, m = k + 1 := ⟨m - 1, by omega⟩
      obtain ⟨ev, hw, hf, hd⟩ := walkEntries_covers E repo (processDirectory E repo k) hnp files
        (fun d hd hdir => hN d hd k (by omega) hdir)
      exact ⟨ev, none, by simp only [processDirectory, hls, hw],
        covers_of_listing E repo path files ev hls hf hd⟩

theorem processRepo_isolation_of_no_panic (E : Env) (repo : String)
    (hfin : FiniteTree E repo "")
    (hnp : ∀ p, (processDependencyFile E repo p).2 ≠ Outcome.panic) :
    ∃ depth, ∀ m, depth ≤ m → ∃ ev out,
      processRepo E repo m = some (ev, Outcome.ret out) ∧
      (out.isSome = true ↔ ∃ e, E.fetchFiles repo "" = Except.error e) ∧
      ∀ sub, Listed E repo "" sub → ∀ f ∈ sub, f.Typ ≠ "dir" →
        f.Name ∈ dependencyFiles → Event.handed f.Path ∈ ev := by
  cases hls : E.fetchFiles repo "" with
  | error e =>
    refine ⟨0, fun m _ => ⟨[], some ("error fetching root directory: " ++ e),
      by simp only [processRepo, hls], by simp, ?_⟩⟩
    intro sub hs
    cases hs with
    | here _ _ h => rw [hls] at h; cases h
    | deeper _ _ _ _ h => rw [hls] at h; cases h
  | ok files =>
    cases hfin with
    | node _ hsub =>
      obtain ⟨N, hN⟩ := exists_common_depth
        (fun (d : GithubFile) m => d.Typ = "dir" →
          ∃ ev out, processDirectory E repo m d.Path = some (ev, Outcome.ret out) ∧
            Covers E repo d.Path ev) files
        (fun d hd => by
          by_cases hdir : d.Typ = "dir"
          · obtain ⟨n, hn⟩ := processDirectory_covers E repo hnp d.Path (hsub files hls d hd hdir)
            exact ⟨n, fun m hm _ => hn m hm⟩
          · exact ⟨0, fun m _ h => absurd h hdir⟩)
      refine ⟨N, fun m hm => ?_⟩
      obtain ⟨ev, hw, hf, hd⟩ := walkEntries_covers E repo (processDirectory E repo m) hnp files
        (fun d hd hdir => hN d hd m hm hdir)
      exact ⟨ev, none, by simp only [processRepo, hls, hw], by simp,
        covers_of_listing E repo "" files ev hls hf hd⟩

theorem walkEnv_finite : FiniteTree walkEnv "o/r" "" := by
  refine FiniteTree.node _ (fun files h d hd hdir => ?_)
  have hf : files = [⟨"broken", "dir", "broken"⟩, ⟨"svc", "dir", "svc"⟩,
      ⟨"package.json", "file", "package.json"⟩] := by
    simpa [walkEnv] using h.symm
  subst hf
  simp only [List.mem_cons, List.mem_singleton, List.not_mem_nil, or_false] at hd
  rcases hd with rfl | rfl | rfl
  · refine FiniteTree.node _ (fun files h => ?_)
    simp [walkEnv] at h
  · refine FiniteTree.node _ (fun files h d hd hdir => ?_)
    have hf : files = [⟨"go.sum", "file", "svc/go.sum"⟩] := by
      simpa [walkEnv] using h.symm
    subst hf
    simp only [List.mem_singleton] at hd
    subst hd
    simp at hdir
  · simp at hdir

theorem walkEnv_no_panic (p : String) :
    (processDependencyFile walkEnv "o/r" p).2 ≠ Outcome.panic := by
  by_cases h : p = "svc/go.sum"
  · subst h
    decide
  · simp [processDependencyFile, walkEnv, h]

theorem processRepo_isolation_walkEnv :
    ∃ depth, ∀ m, depth ≤ m → ∃ ev out,
      processRepo walkEnv "o/r" m = some (ev, Outcome.ret out) ∧
      (out.isSome = true ↔ ∃ e, walkEnv.fetchFiles "o/r" "" = Except.error e) ∧
      ∀ sub, Listed walkEnv "o/r" "" sub → ∀ f ∈ sub, f.Typ ≠ "dir" →
        f.Name ∈ dependencyFiles → Event.handed f.Path ∈ ev :=
  processRepo_isolation_of_no_panic walkEnv "o/r" walkEnv_finite walkEnv_no_panic

/-- C2: in a repository all of whose listings succeed, where the root lists the
directory `d` before the file `go.sum` and `d/package.json` has a dependency
whose value is not a string, `processRepo` panics inside the first call of
`processDependencyFile`, for every depth bound that lets the walk complete:
the root listing succeeded and `go.sum` is a recognized manifest of the root
listing, yet it is never handed to `processDependencyFile`, and `processRepo`
returns neither nil nor an error. -/
theorem processRepo_panic_stops_walk :
    (∀ m, processRepo panicEnv "o/r" (m + 1) =
      some ([Event.handed "d/package.json"], Outcome.panic)) ∧
    panicEnv.fetchFiles "o/r" "" =
      Except.ok [⟨"d", "dir", "d"⟩, ⟨"go.sum", "file", "go.sum"⟩] ∧
    panicEnv.fetchFiles "o/r" "d" = Except.ok [⟨"package.json", "file", "d/package.json"⟩] ∧
    Listed panicEnv "o/r" "" [⟨"d", "dir", "d"⟩, ⟨"go.sum", "file", "go.sum"⟩] ∧
    "go.sum" ∈ dependencyFiles ∧
    Event.handed "go.sum" ∉ [Event.handed "d/package.json"] ∧
    processDependencyFile panicEnv "o/r" "go.sum" =
      ([Event.handed "go.sum", Event.extracted "mod.example" "v1.0.0",
        Event.query "mod.example" "v1.0.0" "Go"], Outcome.ret none) :=
  ⟨fun _ => rfl, rfl, rfl, Listed.here _ _ rfl, by decide, by decide, by decide⟩

/-! ### The `package.json` case -/

theorem GoMap.get_set (m : GoMap) (k v k' : String) :
    (m.set k v).get k' = if k = k' then some v else m.get k' := by
  induction m with
  | nil => simp [GoMap.set, GoMap.get]
  | cons a t ih =>
    obtain ⟨ak, av⟩ := a
    unfold GoMap.set
    by_cases h1 : ak = k
    · subst h1
      by_cases h2 : ak = k' <;> simp [GoMap.get, h2]
    · by_cases h2 : ak = k'
      · subst h2
        simp [GoMap.get, h1, Ne.symm h1]
      · simp [GoMap.get, h1, h2, ih]

theorem starMs_cls (p : Char → Bool) (c : Caps) :
    ∀ (s : List Char) (n : Nat), s.length ≤ n →
      starMs (Re.ms (.cls p)) true n s c = (backoffs p s).map (fun r => (r, c)) := by
  intro s
  induction s with
  | nil =>
    intro n _
    cases n with
    | zero => rfl
    | succ n => simp [starMs, Re.ms, backoffs]
  | cons x xs ih =>
    intro n hn
    obtain ⟨k, rfl⟩ : ∃ k, n = k + 1 := ⟨n - 1, by simp at hn; omega⟩
    have hk : xs.length ≤ k := by simpa using hn
    by_cases hp : p x = true
    · simp [starMs, Re.ms, backoffs, hp, ih k hk]
    · simp [starMs, Re.ms, backoffs, hp]

theorem ms_star_cls (p : Char → Bool) (s : List Char) (c : Caps) :
    (Re.star true (.cls p)).ms s c = (backoffs p s).map (fun r => (r, c)) := by
  simp only [Re.ms]
  exact starMs_cls p c s s.length (le_refl _)

theorem ms_plus_cls (p : Char → Bool) (x : Char) (xs : List Char) (c : Caps) :
    (Re.plus true (.cls p)).ms (x :: xs) c =
      if p x then (backoffs p xs).map (fun r => (r, c)) else [] := by
  unfold Re.plus
  by_cases hp : p x = true
  · simp [Re.ms, hp, starMs_cls p c xs xs.length (le_refl _)]
  · simp [Re.ms, hp]

theorem ms_plus_cls_nil (p : Char → Bool) (c : Caps) :
    (Re.plus true (.cls p)).ms [] c = [] := by
  simp [Re.plus, Re.ms]

theorem backoffs_eq (p : Char → Bool) (s : List Char) :
    ∃ tl, backoffs p s = s.dropWhile p :: tl ∧
      ∀ r ∈ tl, ∃ y ys, r = y :: ys ∧ p y = true := by
  induction s with
  | nil => exact ⟨[], rfl, by simp⟩
  | cons x xs ih =>
    obtain ⟨tl, h1, h2⟩ := ih
    by_cases hp : p x = true
    · refine ⟨tl ++ [x :: xs], by simp [backoffs, hp, h1], ?_⟩
      intro r hr
      rcases List.mem_append.mp hr with hr | hr
      · exact h2 r hr
      · exact ⟨x, xs, by simpa using hr, hp⟩
    · exact ⟨[], by simp [backoffs, hp], by simp⟩

theorem flatMap_backoffs {β : Type} (p : Char → Bool) (g : List Char → Caps)
    (f : List Char × Caps → List β)
    (hf : ∀ y ys c, p y = true → f (y :: ys, c) = []) (s : List Char) :
    ((backoffs p s).map (fun r => (r, g r))).flatMap f = f (s.dropWhile p, g (s.dropWhile p)) := by
  obtain ⟨tl, h1, h2⟩ := backoffs_eq p s
  rw [h1]
  simp only [List.map_cons, List.flatMap_cons]
  have : (tl.map (fun r => (r, g r))).flatMap f = [] := by
    rw [List.flatMap_eq_nil_iff]
    intro q hq
    obtain ⟨r, hr, rfl⟩ := List.mem_map.mp hq
    obtain ⟨y, ys, rfl, hy⟩ := h2 r hr
    exact hf y ys _ hy
  rw [this, List.append_nil]

theorem ms_suffix (re : Re) : ∀ (s : List Char) (c : Caps) (r : List Char × Caps),
    r ∈ re.ms s c → r.1 <:+ s := by
  induction re with
  | eps => intro s c r h; simp [Re.ms] at h; subst h; exact List.suffix_refl _
  | cls p =>
    intro s c r h
    cases s with
    | nil => simp [Re.ms] at h
    | cons x xs =>
      by_cases hp : p x = true
      · simp [Re.ms, hp] at h; subst h; exact List.suffix_cons x xs
      · simp [Re.ms, hp] at h
  | seq a b iha ihb =>
    intro s c r h
    simp only [Re.ms, List.mem_flatMap] at h
    obtain ⟨q, hq, hr⟩ := h
    exact (ihb _ _ _ hr).trans (iha _ _ _ hq)
  | alt a b iha ihb =>
    intro s c r h
    simp only [Re.ms, List.mem_append] at h
    rcases h with h | h
    · exact iha _ _ _ h
    · exact ihb _ _ _ h
  | star g a ih =>
    intro s c r h
    simp only [Re.ms] at h
    have key : ∀ (n : Nat) (s : List Char) (c : Caps) (r : List Char × Caps),
        r ∈ starMs a.ms g n s c → r.1 <:+ s := by
      intro n
      induction n with
      | zero => intro s c r h; simp [starMs] at h; subst h; exact List.suffix_refl _
      | succ n ihn =>
        intro s c r h
        have hmore : r = (s, c) ∨ ∃ q, q ∈ a.ms s c ∧ r ∈ starMs a.ms g n q.1 q.2 := by
          cases g <;> simp [starMs, List.mem_flatMap] at h <;> aesop
        rcases hmore with h | ⟨q, hq, hr⟩
        · subst h; exact List.suffix_refl _
        · exact (ihn _ _ _ hr).trans (ih _ _ _ hq)
    exact key _ _ _ _ h
  | group i a ih =>
    intro s c r h
    simp only [Re.ms, List.mem_map] at h
    obtain ⟨q, hq, rfl⟩ := h
    exact ih s c q hq

theorem findAllAux_skip (re : Re) : ∀ (s : List Char) (k : Nat) (adj : Bool), k ≤ s.length →
    findAllAux re s k adj = findAllAux re (s.drop k) 0 adj := by
  intro s
  induction s with
  | nil => intro k adj hk; simp at hk; subst hk; rfl
  | cons x xs ih =>
    intro k adj hk
    cases k with
    | zero => rfl
    | succ k =>
      simp only [List.drop_succ_cons]
      rw [← ih k adj (by simpa using hk)]
      simp [findAllAux]

theorem findAllAux_miss (re : Re) (x : Char) (xs : List Char) (adj : Bool)
    (h : (Re.ms (.group 0 re) (x :: xs) []).head? = none) :
    findAllAux re (x :: xs) 0 adj = findAllAux re xs 0 false := by
  simp [findAllAux, h]

theorem findAllAux_hit (re : Re) (s : List Char) (adj : Bool) (r : List Char × Caps)
    (h : (Re.ms (.group 0 re) s []).head? = some r) (hlen : r.1.length < s.length) :
    findAllAux re s 0 adj = submatch re r.2 :: findAllAux re r.1 0 true := by
  have hsuf : r.1 <:+ s := ms_suffix _ _ _ _ (List.mem_of_mem_head? h)
  obtain ⟨pre, hpre⟩ := hsuf
  cases pre with
  | nil =>
    simp only [List.nil_append] at hpre
    rw [hpre] at hlen
    exact absurd hlen (lt_irrefl _)
  | cons y ys =>
    subst hpre
    have hn : (y :: ys ++ r.1).length - r.1.length = ys.length + 1 := by
      simp only [List.cons_append, List.length_cons, List.length_append]
      omega
    simp only [List.cons_append] at h hn ⊢
    simp only [findAllAux, h, hn, Nat.add_one_ne_zero, ↓reduceIte, Nat.add_sub_cancel]
    rw [findAllAux_skip re (ys ++ r.1) ys.length true (by simp)]
    simp

/-! ### Fields -/

theorem fieldsAux_cur (sp : Char → Bool) : ∀ (s cur : List Char), cur ≠ [] →
    fieldsAux sp s cur =
      (cur ++ s.takeWhile (fun c => !sp c)) :: fieldsAux sp (s.dropWhile (fun c => !sp c)) [] := by
  intro s
  induction s with
  | nil => intro cur h; simp [fieldsAux, h]
  | cons x xs ih =>
    intro cur h
    by_cases hx : sp x = true
    · simp [fieldsAux, hx, h]
    · simp only [Bool.not_eq_true] at hx
      have h2 : cur ++ [x] ≠ [] := by simp
      simp [fieldsAux, hx, ih (cur ++ [x]) h2]

theorem reFields_cons_space (x : Char) (xs : List Char) (hx : isReSpace x = true) :
    reFields (x :: xs) = reFields xs := by
  simp [reFields, fieldsAux, hx]

theorem reFields_cons_nonspace (x : Char) (xs : List Char) (hx : isReSpace x = false) :
    reFields (x :: xs) = (x :: xs.takeWhile (fun c => !isReSpace c)) ::
      reFields (xs.dropWhile (fun c => !isReSpace c)) := by
  have := fieldsAux_cur isReSpace xs [x] (by simp)
  simpa [reFields, fieldsAux, hx] using this

theorem reFields_dropWhile (s : List Char) : reFields (s.dropWhile isReSpace) = reFields s := by
  induction s with
  | nil => rfl
  | cons x xs ih =>
    by_cases hx : isReSpace x = true
    · rw [List.dropWhile_cons_of_pos hx, ih, reFields_cons_space x xs hx]
    · rw [List.dropWhile_cons_of_neg hx]

theorem dropWhile_head_false (p : Char → Bool) (s : List Char) (x : Char) (xs : List Char)
    (h : s.dropWhile p = x :: xs) : p x = false := by
  obtain ⟨_, -, -, h3⟩ := dropWhile_split p s
  exact h3 x (by rw [h]; rfl)

theorem reFields_nextField (s : List Char) :
    reFields s = match nextField s with
      | none => []
      | some (t, r) => t :: reFields r := by
  rw [← reFields_dropWhile s]
  unfold nextField
  cases h : s.dropWhile isReSpace with
  | nil => rfl
  | cons x xs =>
    exact reFields_cons_nonspace x xs (dropWhile_head_false _ _ _ _ h)

theorem dropWhile_length_le (p : Char → Bool) (s : List Char) :
    (s.dropWhile p).length ≤ s.length := by
  induction s with
  | nil => simp
  | cons x xs ih =>
    by_cases hx : p x = true
    · rw [List.dropWhile_cons_of_pos hx]; simp; omega
    · rw [List.dropWhile_cons_of_neg hx]

theorem nextField_length (s t r : List Char) (h : nextField s = some (t, r)) :
    r.length < s.length := by
  unfold nextField at h
  have h1 := dropWhile_length_le isReSpace s
  cases hd : s.dropWhile isReSpace with
  | nil => rw [hd] at h; cases h
  | cons x xs =>
    rw [hd] at h h1
    simp only [Option.some.injEq, Prod.mk.injEq] at h
    obtain ⟨-, rfl⟩ := h
    have h2 := dropWhile_length_le (fun c => !isReSpace c) xs
    simp only [List.length_cons] at h1
    omega

theorem reFields_length_tail (x : Char) (xs : List Char) :
    (reFields xs).length ≤ (reFields (x :: xs)).length := by
  by_cases hx : isReSpace x = true
  · rw [reFields_cons_space x xs hx]
  · simp only [Bool.not_eq_true] at hx
    rw [reFields_cons_nonspace x xs hx]
    cases xs with
    | nil => simp [reFields, fieldsAux]
    | cons y ys =>
      by_cases hy : isReSpace y = true
      · simp [hy]
      · simp only [Bool.not_eq_true] at hy
        rw [reFields_cons_nonspace y ys hy]
        simp [hy]

theorem triples_short (l : List (List Char)) (h : l.length < 3) : triples l = [] := by
  match l, h with
  | [], _ => rfl
  | [_], _ => rfl
  | [_, _], _ => rfl

theorem take_sub_dropWhile (p : Char → Bool) (x : Char) (xs : List Char) :
    (x :: xs).take ((x :: xs).length - (xs.dropWhile p).length) = x :: xs.takeWhile p := by
  have h := List.takeWhile_append_dropWhile p xs
  have hl : (xs.takeWhile p).length + (xs.dropWhile p).length = xs.length := by
    rw [← List.length_append, h]
  have h0 : ∀ a b : List Char, List.take a.length (a ++ b) = a := fun a b => by simp
  have h3 := h0 (xs.takeWhile p) (xs.dropWhile p)
  rw [h] at h3
  have : (x :: xs).length - (xs.dropWhile p).length = (xs.takeWhile p).length + 1 := by
    simp only [List.length_cons]; omega
  rw [this, List.take_succ_cons, h3]

/-! ### Patterns built from `\S+` and `\s+` -/

theorem ms_group_plus_cls (i : Nat) (p : Char → Bool) (x : Char) (xs : List Char) (c : Caps) :
    (Re.group i (Re.plus true (.cls p))).ms (x :: xs) c =
      if p x then (backoffs p xs).map
        (fun r => (r, (i, (x :: xs).take ((x :: xs).length - r.length)) :: c))
      else [] := by
  rw [Re.ms, ms_plus_cls]
  by_cases hp : p x = true
  · simp [hp]
  · simp [hp]

theorem ms_group_plus_cls_nil (i : Nat) (p : Char → Bool) (c : Caps) :
    (Re.group i (Re.plus true (.cls p))).ms [] c = [] := by
  rw [Re.ms, ms_plus_cls_nil]; rfl

theorem ms_seq_group_plus (i : Nat) (p : Char → Bool) (K : Re)
    (hK : ∀ y ys c, p y = true → K.ms (y :: ys) c = []) (x : Char) (xs : List Char) (c : Caps) :
    (Re.seq (.group i (Re.plus true (.cls p))) K).ms (x :: xs) c =
      if p x then K.ms (xs.dropWhile p) ((i, x :: xs.takeWhile p) :: c) else [] := by
  rw [Re.ms, ms_group_plus_cls]
  by_cases hp : p x = true
  · simp only [hp, ↓reduceIte]
    rw [flatMap_backoffs p (fun r => (i, (x :: xs).take ((x :: xs).length - r.length)) :: c)
      (fun r => K.ms r.1 r.2) (fun y ys c hy => hK y ys c hy) xs]
    simp only [take_sub_dropWhile]
  · simp [hp]

theorem ms_seq_plus (p : Char → Bool) (K : Re)
    (hK : ∀ y ys c, p y = true → K.ms (y :: ys) c = []) (x : Char) (xs : List Char) (c : Caps) :
    (Re.seq (Re.plus true (.cls p)) K).ms (x :: xs) c =
      if p x then K.ms (xs.dropWhile p) c else [] := by
  rw [Re.ms, ms_plus_cls]
  by_cases hp : p x = true
  · simp only [hp, ↓reduceIte]
    exact flatMap_backoffs p (fun _ => c) (fun r => K.ms r.1 r.2) (fun y ys c hy => hK y ys c hy) xs
  · simp [hp]

theorem head_group_plus_cls (i : Nat) (p : Char → Bool) (x : Char) (xs : List Char) (c : Caps) :
    ((Re.group i (Re.plus true (.cls p))).ms (x :: xs) c).head? =
      if p x then some (xs.dropWhile p, (i, x :: xs.takeWhile p) :: c) else none := by
  rw [ms_group_plus_cls]
  by_cases hp : p x = true
  · obtain ⟨tl, h1, -⟩ := backoffs_eq p xs
    simp only [hp, ↓reduceIte, h1, List.map_cons, List.head?_cons, take_sub_dropWhile]
  · simp [hp]

theorem ms_seq_space_miss (K : Re) (y : Char) (ys : List Char) (c : Caps)
    (hy : (!isReSpace y) = true) :
    (Re.seq (Re.plus true (.cls isReSpace)) K).ms (y :: ys) c = [] := by
  have : isReSpace y = false := by simpa using hy
  rw [Re.ms, ms_plus_cls]
  simp [this]

theorem ms_seq_field_miss (i : Nat) (K : Re) (y : Char) (ys : List Char) (c : Caps)
    (hy : isReSpace y = true) :
    (Re.seq (.group i (Re.plus true (.cls (fun c => !isReSpace c)))) K).ms (y :: ys) c = [] := by
  rw [Re.ms, ms_group_plus_cls]
  simp [hy]

theorem ms_field_miss (i : Nat) (y : Char) (ys : List Char) (c : Caps)
    (hy : isReSpace y = true) :
    (Re.group i (Re.plus true (.cls (fun c => !isReSpace c)))).ms (y :: ys) c = [] := by
  rw [ms_group_plus_cls]
  simp [hy]

theorem ms_space_field (i : Nat) (K : Re)
    (hK : ∀ y ys c, (!isReSpace y) = true → K.ms (y :: ys) c = []) (r : List Char) (c : Caps)
    (hr : ∀ y ys, r = y :: ys → isReSpace y = true) :
    (Re.seq (Re.plus true (.cls isReSpace))
      (.seq (.group i (Re.plus true (.cls (fun c => !isReSpace c)))) K)).ms r c =
      match nextField r with
      | none => []
      | some (t, r1) => K.ms r1 ((i, t) :: c) := by
  cases r with
  | nil => simp [Re.ms, ms_plus_cls_nil, nextField]
  | cons y ys =>
    have hy := hr y ys rfl
    rw [ms_seq_plus isReSpace _ (fun y ys c h => ms_seq_field_miss i K y ys c h) y ys c]
    simp only [hy, ↓reduceIte, nextField, List.dropWhile_cons_of_pos]
    cases hd : ys.dropWhile isReSpace with
    | nil => simp [Re.ms, ms_group_plus_cls_nil]
    | cons z zs =>
      have hz := dropWhile_head_false _ _ _ _ hd
      rw [ms_seq_group_plus i _ K hK z zs c]
      simp [hz]

theorem head_space_field (i : Nat) (r : List Char) (c : Caps)
    (hr : ∀ y ys, r = y :: ys → isReSpace y = true) :
    ((Re.seq (Re.plus true (.cls isReSpace))
      (.group i (Re.plus true (.cls (fun c => !isReSpace c))))).ms r c).head? =
      match nextField r with
      | none => none
      | some (t, r1) => some (r1, (i, t) :: c) := by
  cases r with
  | nil => simp [Re.ms, ms_plus_cls_nil, nextField]
  | cons y ys =>
    have hy := hr y ys rfl
    rw [ms_seq_plus isReSpace _ (fun y ys c h => ms_field_miss i y ys c h) y ys c]
    simp only [hy, ↓reduceIte, nextField, List.dropWhile_cons_of_pos]
    cases hd : ys.dropWhile isReSpace with
    | nil => simp [ms_group_plus_cls_nil]
    | cons z zs =>
      have hz := dropWhile_head_false _ _ _ _ hd
      rw [head_group_plus_cls]
      simp [hz]

theorem dropWhile_nonspace_head (xs : List Char) :
    ∀ y ys, xs.dropWhile (fun c => !isReSpace c) = y :: ys → isReSpace y = true := by
  intro y ys h
  have := dropWhile_head_false _ _ _ _ h
  simpa using this

theorem nextField_rest (s t r : List Char) (h : nextField s = some (t, r)) :
    ∀ y ys, r = y :: ys → isReSpace y = true := by
  unfold nextField at h
  cases hd : s.dropWhile isReSpace with
  | nil => rw [hd] at h; cases h
  | cons x xs =>
    rw [hd] at h
    simp only [Option.some.injEq, Prod.mk.injEq] at h
    obtain ⟨-, rfl⟩ := h
    exact dropWhile_nonspace_head xs

/-! ### The `go.sum` pattern -/

theorem reGoSum_head (x : Char) (xs : List Char) (hx : isReSpace x = false) :
    (reGoSum.ms (x :: xs) []).head? =
      match nextField (xs.dropWhile (fun c => !isReSpace c)) with
      | none => none
      | some (t2, r2) =>
        match nextField r2 with
        | none => none
        | some (t3, r3) =>
          some (r3, [(3, t3), (2, t2), (1, x :: xs.takeWhile (fun c => !isReSpace c))]) := by
  have e : reGoSum = Re.seq (.group 1 (Re.plus true (.cls (fun c => !isReSpace c))))
      (.seq (Re.plus true (.cls isReSpace))
        (.seq (.group 2 (Re.plus true (.cls (fun c => !isReSpace c))))
          (.seq (Re.plus true (.cls isReSpace))
            (.group 3 (Re.plus true (.cls (fun c => !isReSpace c))))))) := rfl
  rw [e, ms_seq_group_plus 1 _ _ (fun y ys c h => ms_seq_space_miss _ y ys c h) x xs []]
  simp only [hx, Bool.not_false, ↓reduceIte]
  rw [ms_space_field 2 _ (fun y ys c h => ms_seq_space_miss _ y ys c h) _ _
    (dropWhile_nonspace_head xs)]
  cases h1 : nextField (xs.dropWhile (fun c => !isReSpace c)) with
  | none => rfl
  | some p =>
    obtain ⟨t2, r2⟩ := p
    simp only
    rw [head_space_field 3 r2 _ (nextField_rest _ _ _ h1)]

theorem reGoSum_miss_space (x : Char) (xs : List Char) (hx : isReSpace x = true) :
    reGoSum.ms (x :: xs) [] = [] :=
  ms_seq_field_miss 1 _ x xs [] hx

theorem reGoSum_nil : reGoSum.ms [] [] = [] := by
  have e : reGoSum = Re.seq (.group 1 (Re.plus true (.cls (fun c => !isReSpace c))))
      (.seq (Re.plus true (.cls isReSpace))
        (.seq (.group 2 (Re.plus true (.cls (fun c => !isReSpace c))))
          (.seq (Re.plus true (.cls isReSpace))
            (.group 3 (Re.plus true (.cls (fun c => !isReSpace c))))))) := rfl
  rw [e, Re.ms, ms_group_plus_cls_nil]
  rfl

theorem head_group_zero (re : Re) (s : List Char) :
    ((Re.group 0 re).ms s []).head? =
      (re.ms s []).head?.map (fun q => (q.1, (0, s.take (s.length - q.1.length)) :: q.2)) := by
  rw [Re.ms, List.head?_map]

theorem goSum_fold (n : Nat) : ∀ (s : List Char), s.length ≤ n → ∀ (adj : Bool) (acc : GoMap),
    (findAllAux reGoSum s 0 adj).foldl
      (fun packages m => if m.length = 4 then packages.set (idx m 1) (idx m 2) else packages) acc =
    (triples (reFields s)).foldl (fun packages kv => packages.set kv.1 kv.2) acc := by
  induction n with
  | zero =>
    intro s hs adj acc
    have : s = [] := List.eq_nil_of_length_eq_zero (Nat.le_zero.mp hs)
    subst this
    simp [findAllAux, head_group_zero, reGoSum_nil, reFields, fieldsAux, triples]
  | succ n ih =>
    intro s hs adj acc
    cases s with
    | nil => simp [findAllAux, head_group_zero, reGoSum_nil, reFields, fieldsAux, triples]
    | cons x xs =>
      have hxs : xs.length ≤ n := by simpa using hs
      by_cases hx : isReSpace x = true
      · rw [findAllAux_miss reGoSum x xs adj
          (by rw [head_group_zero, reGoSum_miss_space x xs hx]; rfl),
          reFields_cons_space x xs hx]
        exact ih xs hxs false acc
      · simp only [Bool.not_eq_true] at hx
        have hhead := reGoSum_head x xs hx
        have hf1 := reFields_cons_nonspace x xs hx
        have hf2 := reFields_nextField (xs.dropWhile (fun c => !isReSpace c))
        have hmiss : (reGoSum.ms (x :: xs) []).head? = none → (reFields (x :: xs)).length < 3 →
            (findAllAux reGoSum (x :: xs) 0 adj).foldl
              (fun packages m =>
                if m.length = 4 then packages.set (idx m 1) (idx m 2) else packages) acc =
            (triples (reFields (x :: xs))).foldl (fun packages kv => packages.set kv.1 kv.2)
              acc := by
          intro hnone hlen
          rw [findAllAux_miss reGoSum x xs adj (by rw [head_group_zero, hnone]; rfl),
            ih xs hxs false acc, triples_short _ hlen,
            triples_short _ (lt_of_le_of_lt (reFields_length_tail x xs) hlen)]
        cases h1 : nextField (xs.dropWhile (fun c => !isReSpace c)) with
        | none =>
          rw [h1] at hhead hf2
          exact hmiss hhead (by rw [hf1, hf2]; simp)
        | some p =>
          obtain ⟨t2, r2⟩ := p
          rw [h1] at hhead hf2
          simp only at hhead hf2
          have hf3 := reFields_nextField r2
          cases h2 : nextField r2 with
          | none =>
            rw [h2] at hhead hf3
            exact hmiss hhead (by rw [hf1, hf2, hf3]; simp)
          | some q =>
            obtain ⟨t3, r3⟩ := q
            rw [h2] at hhead hf3
            simp only at hhead hf3
            have hl1 := nextField_length _ _ _ h1
            have hl2 := nextField_length _ _ _ h2
            have hl0 := dropWhile_length_le (fun c => !isReSpace c) xs
            have hhit := findAllAux_hit reGoSum (x :: xs) adj
              (r3, (0, (x :: xs).take ((x :: xs).length - r3.length)) ::
                [(3, t3), (2, t2), (1, x :: xs.takeWhile (fun c => !isReSpace c))])
              (by rw [head_group_zero, hhead]; rfl) (by simp only [List.length_cons]; omega)
            rw [hhit, hf1, hf2, hf3]
            simp only [List.foldl_cons, triples]
            rw [ih r3 (by omega) true]
            rfl

/-! ### The `requirements.txt` pattern -/

theorem ms_lit_eqeq (r : List Char) (c : Caps) :
    (Re.lit ['=', '=']).ms r c =
      match r with
      | '=' :: '=' :: r1 => [(r1, c)]
      | _ => [] := by
  match r with
  | [] => simp [Re.lit, Re.chr, Re.ms]
  | [a] =>
    by_cases ha : a = '='
    · subst ha; simp [Re.lit, Re.chr, Re.ms]
    · simp [Re.lit, Re.chr, Re.ms, ha]
  | a :: b :: r1 =>
    by_cases ha : a = '='
    · subst ha
      by_cases hb : b = '='
      · subst hb; simp [Re.lit, Re.chr, Re.ms]
      · simp [Re.lit, Re.chr, Re.ms, hb]
    · simp [Re.lit, Re.chr, Re.ms, ha]


theorem isReSpace_eq_sign (y : Char) (hy : isReSpace y = true) : y ≠ '=' := by
  intro h
  subst h
  exact absurd hy (by decide)

theorem head_eq_field (r : List Char) (c : Caps) :
    ((Re.seq (Re.lit ['=', '=']) (.group 2 (Re.plus true (.cls (fun c => !isReSpace c))))).ms
      r c).head? = (afterEq r).map (fun vr => (vr.2, (2, vr.1) :: c)) := by
  rw [Re.ms, ms_lit_eqeq]
  match r with
  | [] => simp [afterEq]
  | [a] =>
    by_cases ha : a = '='
    · subst ha; simp [afterEq]
    · simp [afterEq, ha]
  | a :: b :: r1 =>
    by_cases ha : a = '='
    · subst ha
      by_cases hb : b = '='
      · subst hb
        cases r1 with
        | nil => simp [afterEq, ms_group_plus_cls_nil]
        | cons y ys =>
          simp only [List.flatMap_cons, List.flatMap_nil, List.append_nil]
          rw [head_group_plus_cls]
          by_cases hy : isReSpace y = true
          · simp [afterEq, hy]
          · simp only [Bool.not_eq_true] at hy
            simp [afterEq, hy]
      · simp [afterEq, hb]
    · simp [afterEq, ha]

theorem scan_head (g : List Char → Caps) : ∀ xs : List Char,
    (((backoffs (fun c => !isReSpace c) xs).map (fun r => (r, g r))).flatMap
      (fun q => (Re.seq (Re.lit ['=', '='])
        (.group 2 (Re.plus true (.cls (fun c => !isReSpace c))))).ms q.1 q.2)).head? =
    (reqScan xs).map (fun nvr => (nvr.2.2, (2, nvr.2.1) :: g (xs.drop nvr.1.length))) := by
  intro xs
  induction xs with
  | nil =>
    simp only [backoffs, List.map_cons, List.map_nil, List.flatMap_cons, List.flatMap_nil,
      List.append_nil, head_eq_field, reqScan]
    rfl
  | cons y ys ih =>
    by_cases hy : isReSpace y = true
    · have hne := isReSpace_eq_sign y hy
      simp only [backoffs, hy, Bool.not_true, Bool.false_eq_true, ↓reduceIte, List.map_cons,
        List.map_nil, List.flatMap_cons, List.flatMap_nil, List.append_nil, head_eq_field, reqScan]
      cases ys with
      | nil => simp [afterEq]
      | cons b r1 => cases r1 <;> simp [afterEq, hne]
    · simp only [Bool.not_eq_true] at hy
      simp only [backoffs, hy, Bool.not_false, ↓reduceIte, List.map_append, List.map_cons,
        List.map_nil, List.flatMap_append, List.flatMap_cons, List.flatMap_nil, List.append_nil,
        List.head?_append, ih, head_eq_field, reqScan, Bool.false_eq_true]
      cases hs : reqScan ys with
      | none => simp [Option.map_map, Function.comp_def]
      | some nvr => simp


theorem afterEq_spec (s v r : List Char) (h : afterEq s = some (v, r)) :
    s = '=' :: '=' :: (v ++ r) ∧ v ≠ [] := by
  match s with
  | [] => simp [afterEq] at h
  | [a] => simp [afterEq] at h
  | [a, b] => simp [afterEq] at h
  | a :: b :: y :: ys =>
    by_cases ha : a = '='
    · subst ha
      by_cases hb : b = '='
      · subst hb
        by_cases hy : isReSpace y = true
        · simp [afterEq, hy] at h
        · simp only [Bool.not_eq_true] at hy
          simp only [afterEq, hy, Bool.false_eq_true, ↓reduceIte, Option.some.injEq,
            Prod.mk.injEq] at h
          obtain ⟨rfl, rfl⟩ := h
          simp
      · simp [afterEq, hb] at h
    · simp [afterEq, ha] at h

theorem reqScan_spec : ∀ (xs n v r : List Char), reqScan xs = some (n, v, r) →
    xs = n ++ '=' :: '=' :: (v ++ r) ∧ v ≠ [] := by
  intro xs
  induction xs with
  | nil => intro n v r h; simp [reqScan] at h
  | cons y ys ih =>
    intro n v r h
    by_cases hy : isReSpace y = true
    · simp [reqScan, hy] at h
    · simp only [Bool.not_eq_true] at hy
      simp only [reqScan, hy, Bool.false_eq_true, ↓reduceIte] at h
      cases hs : reqScan ys with
      | some nvr =>
        obtain ⟨n1, v1, r1⟩ := nvr
        rw [hs] at h
        simp only [Option.some.injEq, Prod.mk.injEq] at h
        obtain ⟨h1, h2⟩ := ih n1 v1 r1 hs
        obtain ⟨rfl, rfl, rfl⟩ := h
        exact ⟨by rw [h1]; rfl, h2⟩
      | none =>
        rw [hs] at h
        cases ha : afterEq (y :: ys) with
        | none => rw [ha] at h; simp at h
        | some vr =>
          obtain ⟨v1, r1⟩ := vr
          rw [ha] at h
          simp only [Option.map_some', Option.some.injEq, Prod.mk.injEq] at h
          obtain ⟨rfl, rfl, rfl⟩ := h
          obtain ⟨h1, h2⟩ := afterEq_spec _ _ _ ha
          exact ⟨by rw [h1]; rfl, h2⟩

theorem reRequirements_head (x : Char) (xs : List Char) :
    (reRequirements.ms (x :: xs) []).head? =
      if isReSpace x then none
      else (reqScan xs).map (fun nvr => (nvr.2.2, [(2, nvr.2.1), (1, x :: nvr.1)])) := by
  have e : reRequirements = Re.seq (.group 1 (Re.plus true (.cls (fun c => !isReSpace c))))
      (.seq (Re.lit ['=', '=']) (.group 2 (Re.plus true (.cls (fun c => !isReSpace c))))) := rfl
  rw [e, Re.ms, ms_group_plus_cls]
  by_cases hx : isReSpace x = true
  · simp [hx]
  · simp only [Bool.not_eq_true] at hx
    simp only [hx, Bool.not_false, ↓reduceIte, Bool.false_eq_true]
    rw [scan_head (fun r => [(1, (x :: xs).take ((x :: xs).length - r.length))]) xs]
    cases hs : reqScan xs with
    | none => rfl
    | some nvr =>
      obtain ⟨n, v, r⟩ := nvr
      obtain ⟨h1, -⟩ := reqScan_spec xs n v r hs
      simp only [Option.map_some', Option.some.injEq, Prod.mk.injEq, List.cons.injEq, and_true,
        true_and]
      have h0 : ∀ a b : List Char, List.take a.length (a ++ b) = a := fun a b => by simp
      have h2 : (x :: xs).length - (xs.drop n.length).length = n.length + 1 := by
        rw [h1]; simp; omega
      rw [h2, List.take_succ_cons]
      conv_lhs => rw [h1]
      rw [h0]

theorem reRequirements_nil : reRequirements.ms [] [] = [] := by
  have e : reRequirements = Re.seq (.group 1 (Re.plus true (.cls (fun c => !isReSpace c))))
      (.seq (Re.lit ['=', '=']) (.group 2 (Re.plus true (.cls (fun c => !isReSpace c))))) := rfl
  rw [e, Re.ms, ms_group_plus_cls_nil]
  rfl


theorem takeWhile_idem (p : Char → Bool) (s : List Char) :
    (s.takeWhile p).takeWhile p = s.takeWhile p := by
  induction s with
  | nil => rfl
  | cons x xs ih =>
    by_cases hx : p x = true
    · simp [List.takeWhile_cons, hx, ih]
    · simp [List.takeWhile_cons, hx]

theorem afterEq_takeWhile (y : Char) (ys : List Char) (hy : isReSpace y = false) :
    (afterEq (y :: ys)).map (fun vr => (vr.1, ys.dropWhile (fun c => !isReSpace c))) =
      (afterEq (y :: ys.takeWhile (fun c => !isReSpace c))).map
        (fun vr => (vr.1, ys.dropWhile (fun c => !isReSpace c))) ∧
    ∀ v r, afterEq (y :: ys) = some (v, r) → r = ys.dropWhile (fun c => !isReSpace c) := by
  by_cases ha : y = '='
  · subst ha
    match ys with
    | [] => simp [afterEq]
    | [b] =>
      by_cases hb : isReSpace b = true
      · simp [afterEq, hb]
      · simp [afterEq, hb]
    | b :: z :: zs =>
      by_cases hb : b = '='
      · subst hb
        have hb2 : isReSpace '=' = false := by decide
        by_cases hz : isReSpace z = true
        · simp [afterEq, hz, hb2, List.takeWhile_cons]
        · simp only [Bool.not_eq_true] at hz
          simp only [afterEq, hz, Bool.false_eq_true, ↓reduceIte, Option.map_some',
            List.takeWhile_cons, hb2, Bool.not_false, takeWhile_idem, Option.some.injEq,
            Prod.mk.injEq, true_and, List.dropWhile_cons, and_imp]
          exact fun v r _ h => h.symm
      · by_cases hb3 : isReSpace b = true
        · simp [afterEq, hb, hb3, List.takeWhile_cons]
        · simp [afterEq, hb, hb3, List.takeWhile_cons]
  · constructor
    · cases ys with
      | nil => simp [afterEq, ha]
      | cons b r1 =>
        by_cases hb : isReSpace b = true
        · cases r1 <;> simp [afterEq, ha, hb, List.takeWhile_cons]
        · cases r1 with
          | nil => simp [afterEq, ha]
          | cons z zs =>
            by_cases hz : isReSpace z = true
            · simp [afterEq, ha, hb, hz, List.takeWhile_cons]
            · simp [afterEq, ha, hb, hz, List.takeWhile_cons]
    · intro v r h
      cases ys with
      | nil => simp [afterEq] at h
      | cons b r1 => cases r1 <;> simp [afterEq, ha] at h

theorem reqScan_takeWhile : ∀ xs : List Char,
    reqScan xs = (reqScan (xs.takeWhile (fun c => !isReSpace c))).map
      (fun nvr => (nvr.1, nvr.2.1, xs.dropWhile (fun c => !isReSpace c))) := by
  intro xs
  induction xs with
  | nil => rfl
  | cons y ys ih =>
    by_cases hy : isReSpace y = true
    · simp [reqScan, hy, List.takeWhile_cons]
    · simp only [Bool.not_eq_true] at hy
      simp only [reqScan, hy, Bool.false_eq_true, ↓reduceIte, List.takeWhile_cons, Bool.not_false,
        List.dropWhile_cons]
      rw [ih]
      cases hs : reqScan (ys.takeWhile (fun c => !isReSpace c)) with
      | some nvr => simp
      | none =>
        simp only [Option.map_none']
        obtain ⟨h1, h2⟩ := afterEq_takeWhile y ys hy
        cases ha : afterEq (y :: ys) with
        | none =>
          rw [ha] at h1
          cases hb : afterEq (y :: ys.takeWhile (fun c => !isReSpace c)) with
          | none => rfl
          | some vr => rw [hb] at h1; simp at h1
        | some vr =>
          obtain ⟨v, r⟩ := vr
          have hr := h2 v r ha
          subst hr
          rw [ha] at h1
          cases hb : afterEq (y :: ys.takeWhile (fun c => !isReSpace c)) with
          | none => rw [hb] at h1; simp at h1
          | some vr2 =>
            rw [hb] at h1
            simp only [Option.map_some', Option.some.injEq, Prod.mk.injEq, and_true] at h1
            simp [h1]


theorem reqScan_tail_none (y : Char) (ys : List Char) (hy : isReSpace y = false)
    (h : reqScan (y :: ys) = none) : reqScan ys = none := by
  simp only [reqScan, hy, Bool.false_eq_true, ↓reduceIte] at h
  cases hs : reqScan ys with
  | none => rfl
  | some nvr => rw [hs] at h; simp at h

theorem req_skip_token : ∀ (xs : List Char) (x : Char) (adj : Bool), isReSpace x = false →
    reqScan xs = none →
    findAllAux reRequirements (x :: xs) 0 adj =
      findAllAux reRequirements (xs.dropWhile (fun c => !isReSpace c)) 0 false := by
  intro xs
  induction xs with
  | nil =>
    intro x adj hx hs
    rw [findAllAux_miss reRequirements x [] adj
      (by rw [head_group_zero, reRequirements_head, hs]; simp)]
    rfl
  | cons y ys ih =>
    intro x adj hx hs
    rw [findAllAux_miss reRequirements x (y :: ys) adj
      (by rw [head_group_zero, reRequirements_head, hs]; simp)]
    by_cases hy : isReSpace y = true
    · simp [List.dropWhile_cons, hy]
    · simp only [Bool.not_eq_true] at hy
      rw [ih y false hy (reqScan_tail_none y ys hy hs)]
      simp [List.dropWhile_cons, hy]

theorem req_fold (n : Nat) : ∀ (s : List Char), s.length ≤ n → ∀ (adj : Bool) (acc : GoMap),
    (findAllAux reRequirements s 0 adj).foldl
      (fun packages m => packages.set (idx m 1) (idx m 2)) acc =
    ((reFields s).filterMap reqSplit).foldl (fun packages kv => packages.set kv.1 kv.2) acc := by
  induction n with
  | zero =>
    intro s hs adj acc
    have : s = [] := List.eq_nil_of_length_eq_zero (Nat.le_zero.mp hs)
    subst this
    simp [findAllAux, head_group_zero, reRequirements_nil, reFields, fieldsAux]
  | succ n ih =>
    intro s hs adj acc
    cases s with
    | nil => simp [findAllAux, head_group_zero, reRequirements_nil, reFields, fieldsAux]
    | cons x xs =>
      have hxs : xs.length ≤ n := by simpa using hs
      by_cases hx : isReSpace x = true
      · rw [findAllAux_miss reRequirements x xs adj
          (by rw [head_group_zero, reRequirements_head]; simp [hx]),
          reFields_cons_space x xs hx]
        exact ih xs hxs false acc
      · simp only [Bool.not_eq_true] at hx
        have hl0 := dropWhile_length_le (fun c => !isReSpace c) xs
        have hscan := reqScan_takeWhile xs
        rw [reFields_cons_nonspace x xs hx]
        cases hs2 : reqScan (xs.takeWhile (fun c => !isReSpace c)) with
        | none =>
          rw [hs2] at hscan
          rw [req_skip_token xs x adj hx hscan, ih _ (by omega) false acc]
          simp [reqSplit, hs2]
        | some nvr =>
          obtain ⟨nm, v, r⟩ := nvr
          rw [hs2] at hscan
          simp only [Option.map_some'] at hscan
          have hhit := findAllAux_hit reRequirements (x :: xs) adj
            (xs.dropWhile (fun c => !isReSpace c),
              (0, (x :: xs).take ((x :: xs).length -
                (xs.dropWhile (fun c => !isReSpace c)).length)) :: [(2, v), (1, x :: nm)])
            (by rw [head_group_zero, reRequirements_head, hscan]; simp [hx])
            (by simp only [List.length_cons]; omega)
          rw [hhit]
          simp only [List.foldl_cons, List.filterMap_cons, reqSplit, hs2, Option.map_some']
          rw [ih _ (by omega) true]
          rfl

/-! ### Lines and fields -/

theorem splitOnChar_ne_nil (sep : Char) (s : List Char) : splitOnChar sep s ≠ [] := by
  cases s with
  | nil => simp [splitOnChar]
  | cons c cs =>
    unfold splitOnChar
    split
    · simp
    · split <;> simp

theorem fieldsAux_lines : ∀ (s cur : List Char),
    fieldsAux isReSpace s cur =
      match splitOnChar '\n' s with
      | [] => []
      | l :: ls => fieldsAux isReSpace l cur ++ ls.flatMap reFields := by
  intro s
  induction s with
  | nil => intro cur; simp [splitOnChar]
  | cons c cs ih =>
    intro cur
    cases hsp : splitOnChar '\n' cs with
    | nil => exact absurd hsp (splitOnChar_ne_nil _ _)
    | cons l ls =>
      have ih0 := ih []
      rw [hsp] at ih0
      simp only at ih0
      by_cases hc : c = '\n'
      · subst hc
        have hn : isReSpace '\n' = true := by decide
        simp only [splitOnChar, hsp, ↓reduceIte, List.flatMap_cons, reFields]
        simp only [fieldsAux, hn, ↓reduceIte]
        rw [ih0]
        by_cases hcur : cur = []
        · simp [hcur, reFields]
        · simp [hcur, reFields]
      · simp only [splitOnChar, hsp, hc, ↓reduceIte]
        by_cases hs : isReSpace c = true
        · simp only [fieldsAux, hs, ↓reduceIte]
          rw [ih0]
          by_cases hcur : cur = []
          · simp [hcur]
          · simp [hcur]
        · simp only [fieldsAux, hs, Bool.false_eq_true, ↓reduceIte]
          have ih1 := ih (cur ++ [c])
          rw [hsp] at ih1
          exact ih1

theorem reFields_lines (s : List Char) :
    reFields s = (splitOnChar '\n' s).flatMap reFields := by
  have h := fieldsAux_lines s []
  cases hsp : splitOnChar '\n' s with
  | nil => exact absurd hsp (splitOnChar_ne_nil _ _)
  | cons l ls =>
    rw [hsp] at h
    simpa [reFields] using h

theorem triples_lines (lines : List (List Char))
    (h : ∀ line ∈ lines, (reFields line).length = 3 ∨ reFields line = []) :
    triples (lines.flatMap reFields) = lines.filterMap goSumLine := by
  induction lines with
  | nil => rfl
  | cons l ls ih =>
    have ih' := ih (fun line hl => h line (List.mem_cons_of_mem _ hl))
    rcases h l (List.mem_cons_self _ _) with h3 | h0
    · match hl : reFields l, h3 with
      | [a, b, c], _ =>
        simp [List.flatMap_cons, hl, triples, goSumLine, ih']
    · simp [List.flatMap_cons, h0, goSumLine, ih']

/-! ### Entries of a map built by writes -/

theorem get_foldl_set (l : List (String × String)) : ∀ (acc : GoMap) (k v : String),
    (l.foldl (fun packages kv => packages.set kv.1 kv.2) acc).get k = some v →
      (k, v) ∈ l ∨ acc.get k = some v := by
  induction l with
  | nil => intro acc k v h; exact Or.inr h
  | cons a t ih =>
    intro acc k v h
    rcases ih _ k v h with h1 | h1
    · exact Or.inl (List.mem_cons_of_mem _ h1)
    · rw [GoMap.get_set] at h1
      by_cases hk : a.1 = k
      · rw [if_pos hk] at h1
        simp only [Option.some.injEq] at h1
        exact Or.inl (by rw [← hk, ← h1]; exact List.mem_cons_self _ _)
      · rw [if_neg hk] at h1
        exact Or.inr h1

theorem fieldsAux_mem (sp : Char → Bool) : ∀ (s cur : List Char),
    (∀ c ∈ cur, sp c = false) → ∀ t ∈ fieldsAux sp s cur, ∀ c ∈ t, sp c = false := by
  intro s
  induction s with
  | nil =>
    intro cur hcur t ht
    by_cases h : cur = []
    · simp [fieldsAux, h] at ht
    · simp only [fieldsAux, h, ↓reduceIte, List.mem_singleton] at ht
      subst ht
      exact hcur
  | cons x xs ih =>
    intro cur hcur t ht
    by_cases hx : sp x = true
    · by_cases h : cur = []
      · simp only [fieldsAux, hx, ↓reduceIte, h] at ht
        exact ih [] (by simp) t ht
      · simp only [fieldsAux, hx, ↓reduceIte, h, List.mem_cons] at ht
        rcases ht with rfl | ht
        · exact hcur
        · exact ih [] (by simp) t ht
    · simp only [Bool.not_eq_true] at hx
      simp only [fieldsAux, hx, Bool.false_eq_true, ↓reduceIte] at ht
      refine ih (cur ++ [x]) ?_ t ht
      intro c hc
      rcases List.mem_append.mp hc with hc | hc
      · exact hcur c hc
      · simp only [List.mem_singleton] at hc
        subst hc
        exact hx

theorem reFields_mem (s t : List Char) (ht : t ∈ reFields s) : ∀ c ∈ t, isReSpace c = false :=
  fieldsAux_mem isReSpace s [] (by simp) t ht

theorem reqSplit_spec (token : List Char) (hns : ∀ c ∈ token, isReSpace c = false)
    (n v : String) (h : reqSplit token = some (n, v)) :
    token = n.data ++ '=' :: '=' :: v.data ∧ n ≠ "" ∧ v ≠ "" := by
  cases token with
  | nil => simp [reqSplit] at h
  | cons x t =>
    simp only [reqSplit] at h
    cases hs : reqScan t with
    | none => rw [hs] at h; simp at h
    | some nvr =>
      obtain ⟨nm, w, r⟩ := nvr
      rw [hs] at h
      simp only [Option.map_some', Option.some.injEq, Prod.mk.injEq] at h
      obtain ⟨rfl, rfl⟩ := h
      obtain ⟨h1, h2⟩ := reqScan_spec t nm w r hs
      have hd : t.dropWhile (fun c => !isReSpace c) = [] := by
        rw [List.dropWhile_eq_nil_iff]
        intro c hc
        simp [hns c (List.mem_cons_of_mem _ hc)]
      have hr : r = [] := by
        have h3 := reqScan_takeWhile t
        rw [hs] at h3
        cases h4 : reqScan (t.takeWhile (fun c => !isReSpace c)) with
        | none => rw [h4] at h3; simp at h3
        | some q =>
          rw [h4] at h3
          simp only [Option.map_some', Option.some.injEq, Prod.mk.injEq] at h3
          rw [h3.2.2, hd]
      subst hr
      refine ⟨by rw [h1]; simp, ?_, ?_⟩
      · intro hc
        have := congrArg String.data hc
        simp at this
      · intro hc
        have := congrArg String.data hc
        exact h2 (by simpa using this)

theorem reqScan_cons (y : Char) (ys : List Char) (hy : isReSpace y = false) :
    reqScan (y :: ys) =
      match reqScan ys with
      | some (n, v, r) => some (y :: n, v, r)
      | none => (afterEq (y :: ys)).map (fun vr => ([], vr.1, vr.2)) := by
  rw [reqScan]
  simp only [hy, Bool.false_eq_true, ↓reduceIte]

theorem reqScan_complete (b : List Char) (hb : b ≠ [])
    (hbs : ∀ c ∈ b, isReSpace c = false) :
    ∀ a : List Char, (∀ c ∈ a, isReSpace c = false) →
      (reqScan (a ++ '=' :: '=' :: b)).isSome = true := by
  intro a
  induction a with
  | nil =>
    intro _
    obtain ⟨z, zs, rfl⟩ := List.exists_cons_of_ne_nil hb
    have hz := hbs z (List.mem_cons_self _ _)
    rw [List.nil_append, reqScan_cons _ _ (by decide)]
    cases reqScan ('=' :: z :: zs) with
    | some q => rfl
    | none => simp [afterEq, hz]
  | cons y ys ih =>
    intro ha
    have hy := ha y (List.mem_cons_self _ _)
    have := ih (fun c hc => ha c (List.mem_cons_of_mem _ hc))
    rw [List.cons_append, reqScan_cons _ _ hy]
    cases hq : reqScan (ys ++ '=' :: '=' :: b) with
    | some q => rfl
    | none => rw [hq] at this; simp at this

theorem reqSplit_complete (a b : List Char) (x : Char) (hb : b ≠ [])
    (hbs : ∀ c ∈ b, isReSpace c = false) (has : ∀ c ∈ a, isReSpace c = false) :
    (reqSplit (x :: a ++ '=' :: '=' :: b)).isSome = true := by
  have := reqScan_complete b hb hbs a has
  simp only [List.cons_append, reqSplit, Option.isSome_map']
  exact this

theorem reqScan_last : ∀ (t nm w r : List Char), (∀ c ∈ t, isReSpace c = false) →
    reqScan t = some (nm, w, r) →
    ∀ a b : List Char, t = a ++ '=' :: '=' :: b → b ≠ [] → a.length ≤ nm.length := by
  intro t
  induction t with
  | nil => intro nm w r _ h; simp [reqScan] at h
  | cons y ys ih =>
    intro nm w r hns h a b hab hb
    have hy := hns y (List.mem_cons_self _ _)
    have hys : ∀ c ∈ ys, isReSpace c = false := fun c hc => hns c (List.mem_cons_of_mem _ hc)
    rw [reqScan_cons y ys hy] at h
    cases a with
    | nil => exact Nat.zero_le _
    | cons a0 a1 =>
      simp only [List.cons_append, List.cons.injEq] at hab
      obtain ⟨-, hab⟩ := hab
      cases hs : reqScan ys with
      | some q =>
        obtain ⟨n1, w1, r1⟩ := q
        rw [hs] at h
        simp only [Option.some.injEq, Prod.mk.injEq] at h
        obtain ⟨rfl, -, -⟩ := h
        have := ih n1 w1 r1 hys hs a1 b hab hb
        simp only [List.length_cons]
        omega
      | none =>
        have hc := reqScan_complete b hb
          (fun c hc => hys c (by rw [hab]; simp [hc])) a1
          (fun c hc => hys c (by rw [hab]; simp [hc]))
        rw [← hab, hs] at hc
        simp at hc

theorem reqSplit_last (token : List Char) (hns : ∀ c ∈ token, isReSpace c = false)
    (n v : String) (h : reqSplit token = some (n, v)) (a b : List Char)
    (hab : token = a ++ '=' :: '=' :: b) (hb : b ≠ []) : a.length ≤ n.data.length := by
  cases token with
  | nil => simp [reqSplit] at h
  | cons x t =>
    simp only [reqSplit] at h
    cases hs : reqScan t with
    | none => rw [hs] at h; simp at h
    | some nvr =>
      obtain ⟨nm, w, r⟩ := nvr
      rw [hs] at h
      simp only [Option.map_some', Option.some.injEq, Prod.mk.injEq] at h
      obtain ⟨rfl, -⟩ := h
      cases a with
      | nil => exact Nat.zero_le _
      | cons a0 a1 =>
        simp only [List.cons_append, List.cons.injEq] at hab
        have := reqScan_last t nm w r (fun c hc => hns c (List.mem_cons_of_mem _ hc)) hs a1 b
          hab.2 hb
        simp only [List.length_cons]
        omega

/-! ### The `go.sum` and `requirements.txt` cases -/

/-- C4 (as stated, refuted): on the two-line `go.sum` of the specification the
result maps `mod.example` to `v1.0.0/go.mod`, the second field of the later
line, not to `v1.0.0`; and on the text with the lines `x y` and `a b c` the
result is `{x: y}` while the line-by-line reading gives `{a: b}`. -/
theorem extractPackages_goSum_counterexample :
    extractPackages noToml "go.sum"
        "mod.example v1.0.0 h1:abc=\nmod.example v1.0.0/go.mod h1:def=" =
      Outcome.ret [("mod.example", "v1.0.0/go.mod")] ∧
    extractPackages noToml "go.sum"
        "mod.example v1.0.0 h1:abc=\nmod.example v1.0.0/go.mod h1:def=" ≠
      Outcome.ret [("mod.example", "v1.0.0")] ∧
    extractPackages noToml "go.sum" "x y\na b c" = Outcome.ret [("x", "y")] ∧
    goSumByLines "x y\na b c" = [("a", "b")] := by
  decide

/-- C4 (amended): for `go.sum` the white-space separated fields of the whole
content are taken three at a time, a line break counting as white space, and
each group sets key = its first field to value = its second field, later
writes overwriting earlier ones; when every line has three fields or none,
this is the line-by-line reading; and the two-line content of the
specification gives `{"mod.example": "v1.0.0/go.mod"}`. -/
theorem extractPackages_goSum (tomlDecode : String → Option GoMap) (content : String) :
    extractPackages tomlDecode "go.sum" content =
      Outcome.ret ((triples (reFields content.data)).foldl
        (fun packages kv => GoMap.set packages kv.1 kv.2) []) ∧
    ((∀ line ∈ splitOnChar '\n' content.data, (reFields line).length = 3 ∨ reFields line = []) →
      extractPackages tomlDecode "go.sum" content = Outcome.ret (goSumByLines content)) ∧
    extractPackages tomlDecode "go.sum"
        "mod.example v1.0.0 h1:abc=\nmod.example v1.0.0/go.mod h1:def=" =
      Outcome.ret [("mod.example", "v1.0.0/go.mod")] := by
  have h1 : extractPackages tomlDecode "go.sum" content =
      Outcome.ret ((triples (reFields content.data)).foldl
        (fun packages kv => GoMap.set packages kv.1 kv.2) []) := by
    simp only [extractPackages, findAllStringSubmatch]
    exact congrArg Outcome.ret (goSum_fold _ _ (le_refl _) false [])
  refine ⟨h1, fun h => ?_, rfl⟩
  rw [h1, goSumByLines, reFields_lines, triples_lines _ h]

/-- C4 (amended) at a content whose lines have three fields or none. -/
theorem extractPackages_goSum_witness :
    (∀ line ∈ splitOnChar '\n' sampleGoSum.data,
      (reFields line).length = 3 ∨ reFields line = []) ∧
    extractPackages noToml "go.sum" sampleGoSum = Outcome.ret (goSumByLines sampleGoSum) :=
  ⟨by decide, (extractPackages_goSum noToml sampleGoSum).2.1 (by decide)⟩

/-- C5 (as stated, refuted): the comment line `# a==1` contributes the entry
`(a, 1)` although the text of the line is not `a==1`, and the requirement
`requests[security]==2.31.0` with extras contributes an entry. -/
theorem extractPackages_requirements_counterexample :
    extractPackages noToml "requirements.txt" "# a==1" = Outcome.ret [("a", "1")] ∧
    "a==1".data ∉ splitOnChar '\n' "# a==1".data ∧
    extractPackages noToml "requirements.txt" "requests[security]==2.31.0" =
      Outcome.ret [("requests[security]", "2.31.0")] := by
  decide

/-- C5 (amended): for `requirements.txt` the result is built from the
white-space delimited tokens of the content in order: a token that reads
`n==v` with `n` and `v` not empty sets `n` to `v` (split at the last such
`==`), and no other token contributes.  Hence every entry `(n, v)` has `n` and
`v` not empty and comes from a line holding the token `n==v`, so a line
without `==` contributes nothing; the line need not consist of that token
alone.  The content of the specification gives `{flask: 2.0.1, requests:
2.31.0}`. -/
theorem extractPackages_requirements (tomlDecode : String → Option GoMap) (content : String) :
    extractPackages tomlDecode "requirements.txt" content =
      Outcome.ret (((reFields content.data).filterMap reqSplit).foldl
        (fun packages kv => GoMap.set packages kv.1 kv.2) []) ∧
    (∀ token ∈ reFields content.data, ∀ n v, reqSplit token = some (n, v) →
      token = n.data ++ '=' :: '=' :: v.data ∧ n ≠ "" ∧ v ≠ "") ∧
    (∀ token ∈ reFields content.data, ∀ a b : List Char, token = a ++ '=' :: '=' :: b →
      a ≠ [] → b ≠ [] → (reqSplit token).isSome = true) ∧
    (∀ token ∈ reFields content.data, ∀ n v, reqSplit token = some (n, v) →
      ∀ a b : List Char, token = a ++ '=' :: '=' :: b → b ≠ [] → a.length ≤ n.data.length) ∧
    (∀ packages n v, extractPackages tomlDecode "requirements.txt" content = Outcome.ret packages →
      packages.get n = some v →
      n ≠ "" ∧ v ≠ "" ∧
        ∃ line ∈ splitOnChar '\n' content.data, n.data ++ '=' :: '=' :: v.data ∈ reFields line) ∧
    extractPackages tomlDecode "requirements.txt" "flask==2.0.1\n# comment\nrequests==2.31.0" =
      Outcome.ret [("flask", "2.0.1"), ("requests", "2.31.0")] := by
  have h1 : extractPackages tomlDecode "requirements.txt" content =
      Outcome.ret (((reFields content.data).filterMap reqSplit).foldl
        (fun packages kv => GoMap.set packages kv.1 kv.2) []) := by
    simp only [extractPackages, findAllStringSubmatch]
    exact congrArg Outcome.ret (req_fold _ _ (le_refl _) false [])
  have h2 : ∀ token ∈ reFields content.data, ∀ n v, reqSplit token = some (n, v) →
      token = n.data ++ '=' :: '=' :: v.data ∧ n ≠ "" ∧ v ≠ "" :=
    fun token ht n v h => reqSplit_spec token (reFields_mem _ _ ht) n v h
  refine ⟨h1, h2, ?_, ?_, ?_, rfl⟩
  · intro token ht a b hab ha hb
    have hns := reFields_mem _ _ ht
    obtain ⟨x, a1, rfl⟩ := List.exists_cons_of_ne_nil ha
    subst hab
    refine reqSplit_complete a1 b x hb (fun c hc => hns c ?_) (fun c hc => hns c ?_)
    · simp [hc]
    · simp [hc]
  · intro token ht n v h a b hab hb
    exact reqSplit_last token (reFields_mem _ _ ht) n v h a b hab hb
  · intro packages n v hp hget
    rw [h1] at hp
    simp only [Outcome.ret.injEq] at hp
    subst hp
    rcases get_foldl_set _ [] n v hget with hmem | hnil
    · obtain ⟨token, ht, hs⟩ := List.mem_filterMap.mp hmem
      obtain ⟨h3, h4, h5⟩ := h2 token ht n v hs
      refine ⟨h4, h5, ?_⟩
      rw [reFields_lines, List.mem_flatMap] at ht
      obtain ⟨line, hl, htl⟩ := ht
      exact ⟨line, hl, h3 ▸ htl⟩
    · simp [GoMap.get] at hnil

/-- C5 (amended) at a content with a comment line that holds a pin. -/
theorem extractPackages_requirements_witness :
    extractPackages noToml "requirements.txt" "# a==1\nflask>=2.0" = Outcome.ret [("a", "1")] ∧
    GoMap.get [("a", "1")] "a" = some "1" ∧
    ("a" ≠ "" ∧ "1" ≠ "" ∧
      ∃ line ∈ splitOnChar '\n' "# a==1\nflask>=2.0".data,
        "a".data ++ '=' :: '=' :: "1".data ∈ reFields line) :=
  ⟨by decide, by decide,
    (extractPackages_requirements noToml "# a==1\nflask>=2.0").2.2.2.2.1 [("a", "1")] "a" "1"
      (by decide) (by decide)⟩

/-! ### Normalized versions -/

theorem normalizeVersion_bare (raw : String) :
    (∀ x, (normalizeVersion raw).data.head? = some x → isComparator x = false) ∧
    (∀ x, (normalizeVersion raw).data.getLast? = some x → isComparator x = false) := by
  obtain ⟨_, -, -, h9⟩ := dropWhile_split isComparator (trimSpaceChars raw.data)
  obtain ⟨_, -, -, h12⟩ :=
    dropWhileEnd_split isComparator ((trimSpaceChars raw.data).dropWhile isComparator)
  have hn : (normalizeVersion raw).data =
      dropWhileEnd isComparator ((trimSpaceChars raw.data).dropWhile isComparator) := rfl
  constructor
  · intro x hx
    rw [hn] at hx
    exact h9 x (dropWhileEnd_head isComparator _ x hx)
  · intro x hx
    rw [hn] at hx
    exact h12 x hx

theorem packageJsonDeps_values (deps : List (String × JVal)) :
    ∀ (acc packages : GoMap), packageJsonDeps deps acc = Outcome.ret packages →
      ∀ n v, packages.get n = some v → (∃ raw, v = normalizeVersion raw) ∨ acc.get n = some v := by
  induction deps with
  | nil =>
    intro acc packages h n v hget
    simp only [packageJsonDeps, Outcome.ret.injEq] at h
    subst h
    exact Or.inr hget
  | cons a t ih =>
    intro acc packages h n v hget
    obtain ⟨k, w⟩ := a
    cases w with
    | str raw =>
      simp only [packageJsonDeps] at h
      rcases ih _ _ h n v hget with h1 | h1
      · exact Or.inl h1
      · rw [GoMap.get_set] at h1
        by_cases hk : k = n
        · rw [if_pos hk] at h1
          exact Or.inl ⟨raw, by simpa using h1.symm⟩
        · rw [if_neg hk] at h1
          exact Or.inr h1
    | null => simp [packageJsonDeps] at h
    | bool b => simp [packageJsonDeps] at h
    | num x => simp [packageJsonDeps] at h
    | arr xs => simp [packageJsonDeps] at h
    | obj m => simp [packageJsonDeps] at h

theorem foldl_normalize_values (deps : GoMap) :
    ∀ (acc : GoMap) (n v : String),
      (deps.foldl (fun packages kv => GoMap.set packages kv.1 (normalizeVersion kv.2)) acc).get n =
        some v →
      (∃ raw, v = normalizeVersion raw) ∨ acc.get n = some v := by
  induction deps with
  | nil => intro acc n v h; exact Or.inr h
  | cons a t ih =>
    intro acc n v h
    rcases ih _ n v h with h1 | h1
    · exact Or.inl h1
    · rw [GoMap.get_set] at h1
      by_cases hk : a.1 = n
      · rw [if_pos hk] at h1
        exact Or.inl ⟨a.2, by simpa using h1.symm⟩
      · rw [if_neg hk] at h1
        exact Or.inr h1

/-- C7 (as stated, refuted): for the `package.json` dependency `"a": "^ 1.0"`
the stored version is ` 1.0`, which starts with white space and which
`normalizeVersion` changes to `1.0`; and for the `Pipfile` line
`requests = "==2.25.1"` the stored version is `==2.25.1` as written. -/
theorem extractPackages_versions_counterexample :
    extractPackages noToml "package.json"
        "\x7b\"dependencies\":\x7b\"a\":\"^ 1.0\"\x7d\x7d" = Outcome.ret [("a", " 1.0")] ∧
    normalizeVersion " 1.0" ≠ " 1.0" ∧
    extractPackages noToml "Pipfile" "requests = \"==2.25.1\"" =
      Outcome.ret [("requests", "==2.25.1")] ∧
    normalizeVersion "==2.25.1" ≠ "==2.25.1" := by
  decide

/-- C7 (amended): for `package.json` and `pyproject.toml` every version in an
extraction result is the value of `normalizeVersion` at some raw text, so it
neither starts nor ends with a comparator character `^ ~ < > =`. -/
theorem extractPackages_versions_normalized (tomlDecode : String → Option GoMap)
    (fileName content : String) (packages : GoMap)
    (hfile : fileName = "package.json" ∨ fileName = "pyproject.toml")
    (hext : extractPackages tomlDecode fileName content = Outcome.ret packages)
    (n v : String) (hget : packages.get n = some v) :
    (∃ raw, v = normalizeVersion raw) ∧
    (∀ x, v.data.head? = some x → isComparator x = false) ∧
    (∀ x, v.data.getLast? = some x → isComparator x = false) := by
  have hraw : ∃ raw, v = normalizeVersion raw := by
    rcases hfile with rfl | rfl
    · simp only [extractPackages] at hext
      split at hext
      · split at hext
        · rcases packageJsonDeps_values _ _ _ hext n v hget with h | h
          · exact h
          · simp [GoMap.get] at h
        · simp only [Outcome.ret.injEq] at hext
          subst hext
          simp [GoMap.get] at hget
      · simp only [Outcome.ret.injEq] at hext
        subst hext
        simp [GoMap.get] at hget
    · simp only [extractPackages] at hext
      split at hext
      · simp only [Outcome.ret.injEq] at hext
        subst hext
        rcases foldl_normalize_values _ _ n v hget with h | h
        · exact h
        · simp [GoMap.get] at h
      · simp only [Outcome.ret.injEq] at hext
        subst hext
        simp [GoMap.get] at hget
  obtain ⟨raw, rfl⟩ := hraw
  exact ⟨⟨raw, rfl⟩, normalizeVersion_bare raw⟩

/-- C7 (amended) at the manifest `{"dependencies":{"lodash":"^4.17.21"}}`. -/
theorem extractPackages_versions_normalized_witness :
    (∃ raw, "4.17.21" = normalizeVersion raw) ∧
    (∀ x, "4.17.21".data.head? = some x → isComparator x = false) ∧
    (∀ x, "4.17.21".data.getLast? = some x → isComparator x = false) :=
  extractPackages_versions_normalized noToml "package.json"
    "\x7b\"dependencies\":\x7b\"lodash\":\"^4.17.21\"\x7d\x7d" [("lodash", "4.17.21")]
    (Or.inl rfl) (by decide) "lodash" "4.17.21" (by decide)

/-! ### Reading a rendered `package.json` -/

end RepoVulnScan
